import Mathlib

/-!
Verification of the rending render-graph compiler (PROMETHIA-27/rending).

This file shallowly embeds the parts of the Rust source that the checked
claims speak about, and proves (or refutes) each claim against the embedding.

Modelling conventions, shared by the whole file:
* machine integers (u32/u64/usize) are modelled as Nat; nothing in the
  embedded code relies on wrap-around, every arithmetic operation of the
  source is a plain addition/max;
* bitflag values (wgpu BufferUsages / TextureUsages) are Nat bitmasks, with
  the flag constants of wgpu; flag-set operations are the Nat bitwise ones;
* the Bitset utility container of the source (word-packed set of small
  naturals) is represented by its set semantics, a List Nat used only
  through membership, insertion and intersection-nonemptiness, which is
  exactly the interface the embedded code uses;
* slotmap keys are insertion indices (the source never removes entries, so
  slotmap iteration order is insertion order and keys are dense);
* the names side-map of NamedSlotMap is a string-keyed map whose insert
  overwrites, so a name resolves to the key of the most recently inserted
  entry with that name;
* fallible code returns Except / Option; `assert!`/`panic!`-style failures
  inside embedded functions are Except errors carrying a message tag.
-/

/-! ## Texture sample types (src/resources/texture.rs) -/

/-- Sample type of a texture binding, mirroring
rending's TextureSampleType (src/resources/texture.rs). -/
inductive TextureSampleType where
  | float (filterable : Bool)
  | depth
  | uint
  | sint
deriving DecidableEq

/-- Accumulated sample-type constraint of a virtual texture, mirroring
TextureSampleTypeConstraint (src/resources/texture.rs). -/
inductive TextureSampleTypeConstraint where
  | unconstrained
  | conflicted (a b : TextureSampleType)
  | constrained (t : TextureSampleType)
deriving DecidableEq

/-- TextureConstraints::set_sample_type (src/resources/texture.rs, lines
583-612), as a function from the stored constraint and the incoming type to
the new stored constraint.  The match arms are in source order. -/
def set_sample_type (c : TextureSampleTypeConstraint) (ty : TextureSampleType) :
    TextureSampleTypeConstraint :=
  match c with
  | .unconstrained => .constrained ty
  | .conflicted a b => .conflicted a b
  | .constrained old_ty =>
    match old_ty, ty with
    -- Upgrade
    | .float false, .float true | .float false, .depth => .constrained ty
    -- Compatible
    | .float true, .float _ | .float false, .float false
    | .depth, .depth | .depth, .float false
    | .sint, .sint | .uint, .uint => .constrained old_ty
    -- Incompatible
    | _, _ => .conflicted old_ty ty

/-- The kind of a sample type, used to state which pairs are cross-kind. -/
def sampleKind : TextureSampleType → Nat
  | .float _ => 0
  | .depth => 1
  | .uint => 2
  | .sint => 3

/-! ## Buffer constraints and materialization
(src/resources/buffer.rs, src/graph.rs RenderGraphCompilation::run) -/

/-- The data of a (retained) wgpu buffer that constraint verification looks
at: its size and its creation usage flags (a bitmask). -/
structure WBuffer where
  size : Nat
  usage : Nat
deriving DecidableEq

/-- BufferConstraints (src/resources/buffer.rs): accumulated minimum size and
minimum usage flags of a virtual buffer. -/
structure BufferConstraints where
  min_size : Nat
  min_usages : Nat
deriving DecidableEq

/-- bitflags `contains`: every flag of the right operand is present in the
left operand. -/
def flagsContains (a b : Nat) : Bool := a &&& b = b

/-- bitflags `difference`: the flags of the left operand that the right
operand lacks (self & !other). -/
def flagsDifference (a b : Nat) : Nat := Nat.ldiff a b

/-- BufferError (src/resources/buffer.rs). -/
inductive BufferError where
  | tooSmall (name : String) (actual min : Nat)
  | missingUsages (name : String) (missing : Nat)
deriving DecidableEq

/-- BufferConstraints::verify_retained (src/resources/buffer.rs, lines
164-179). -/
def verify_retained (c : BufferConstraints) (buffer : WBuffer) (name : String) :
    Option BufferError :=
  if buffer.size < c.min_size then
    some (.tooSmall name buffer.size c.min_size)
  else if ¬ flagsContains buffer.usage c.min_usages then
    some (.missingUsages name (flagsDifference c.min_usages buffer.usage))
  else
    none

/-- The descriptor a transient buffer is created with
(wgpu BufferDescriptor as filled in by RenderGraphCompilation::run). -/
structure BufferDescriptor where
  size : Nat
  usage : Nat
  mapped_at_creation : Bool
deriving DecidableEq

/-- Binding chosen for one virtual buffer at run time
(BufferBinding, src/resources/buffer.rs). -/
inductive BufferBinding where
  | retained (b : WBuffer)
  | transient (d : BufferDescriptor)
deriving DecidableEq

/-- The per-buffer materialization step of RenderGraphCompilation::run
(src/graph.rs, lines 286-311): a retained buffer supplied under the
virtual buffer's name is verified against the accumulated constraints;
otherwise a transient buffer is created from exactly those constraints,
not mapped at creation. -/
def materializeBuffer (retained : Option WBuffer) (c : BufferConstraints)
    (name : String) : Except BufferError BufferBinding :=
  match retained with
  | some buf =>
    match verify_retained c buf name with
    | some err => .error err
    | none => .ok (.retained buf)
  | none => .ok (.transient ⟨c.min_size, c.min_usages, false⟩)

/-! ## Resource bindings and the bind-group cache
(src/resources/bindgroup.rs, src/resources/buffer.rs) -/

/-- RWMode (src/resources/mod.rs). -/
inductive RWMode where
  | read
  | write
  | readWrite
deriving DecidableEq

/-- BufferUse (src/resources/buffer.rs). -/
inductive BufferUse where
  | uniform
  | storage (mode : RWMode)
  | infer
deriving DecidableEq

/-- TextureViewDimension (src/resources/texture.rs). -/
inductive TextureViewDimension where
  | d1
  | d2
  | d2Array
  | cube
  | cubeArray
  | d3
deriving DecidableEq

/-- TextureAspect (src/resources/texture.rs). -/
inductive TextureAspect where
  | all
  | stencilOnly
  | depthOnly
deriving DecidableEq

/-- ResourceBinding (src/resources/bindgroup.rs): the payload bound to one
binding slot.  Handles are Nat (slotmap keys), NonZero sizes/counts are
Option Nat. -/
inductive ResourceBinding where
  | buffer (handle : Nat) (offset : Nat) (size : Option Nat) (usage : BufferUse)
  | texture (handle : Nat) (dimension : Option TextureViewDimension)
      (aspect : TextureAspect) (base_mip : Nat) (mip_count : Option Nat)
      (base_layer : Nat) (layer_count : Option Nat)
deriving DecidableEq

/-- BindGroupCache (src/resources/bindgroup.rs): groups is the slotmap
(handles are insertion indices), reverse is the BTreeMap from the binding
vector to the handle.  The reverse map is kept as an association list with
distinct keys. -/
structure BindGroupCache where
  groups : List (Nat × List (Nat × ResourceBinding))
  reverse : List (List (Nat × ResourceBinding) × Nat)
deriving DecidableEq

/-- BindGroupCache::new. -/
def BindGroupCache.new : BindGroupCache := ⟨[], []⟩

/-- BTreeMap::get on the reverse map. -/
def revGet (rev : List (List (Nat × ResourceBinding) × Nat))
    (resources : List (Nat × ResourceBinding)) : Option Nat :=
  (rev.find? (fun e => e.1 = resources)).map (·.2)

/-- BindGroupCache::get_handle (src/resources/bindgroup.rs, lines 38-50).
Looks the binding vector up in the reverse map; on a miss inserts a fresh
slotmap entry holding (layout, bindings) and records the binding vector in
the reverse map.  Note that the reverse map is keyed by the binding vector
only; the layout handle is stored but not part of the key. -/
def get_handle (c : BindGroupCache) (layout : Nat)
    (resources : List (Nat × ResourceBinding)) : Nat × BindGroupCache :=
  match revGet c.reverse resources with
  | some handle => (handle, c)
  | none =>
    let handle := c.groups.length
    (handle, ⟨c.groups ++ [(layout, resources)], (resources, handle) :: c.reverse⟩)

/-- Well-formedness of a cache state, true of every state reachable from
BindGroupCache.new: every reverse entry points at a live group whose stored
binding vector is the entry's key. -/
def CacheWF (c : BindGroupCache) : Prop :=
  ∀ e ∈ c.reverse, ∃ g, c.groups[e.2]? = some g ∧ g.2 = e.1

/-! ## Texture constraints and RenderCommands::write_texture
(src/resources/texture.rs, src/commands/mod.rs) -/

/-- TextureSize (src/resources/texture.rs). -/
inductive TextureSize where
  | d1 (x : Nat)
  | d2 (x y : Nat)
  | d3 (x y z : Nat)
  | d2Array (x y layers : Nat)
deriving DecidableEq

/-- wgpu Extent3d. -/
structure Extent3d where
  width : Nat
  height : Nat
  depth_or_array_layers : Nat
deriving DecidableEq

/-- wgpu Origin3d. -/
structure Origin3d where
  x : Nat
  y : Nat
  z : Nat
deriving DecidableEq

/-- TextureCopyView (src/resources/texture.rs). -/
structure TextureCopyView where
  handle : Nat
  mip_level : Nat
  origin : Origin3d
  aspect : TextureAspect
deriving DecidableEq

/-- wgpu ImageDataLayout. -/
structure ImageDataLayout where
  offset : Nat
  bytes_per_row : Option Nat
  rows_per_image : Option Nat
deriving DecidableEq

/-- wgpu TextureUsages flag constants. -/
def TEX_COPY_SRC : Nat := 1
/-- wgpu TextureUsages::COPY_DST. -/
def TEX_COPY_DST : Nat := 2
/-- wgpu TextureUsages::TEXTURE_BINDING. -/
def TEX_TEXTURE_BINDING : Nat := 4
/-- wgpu TextureUsages::STORAGE_BINDING. -/
def TEX_STORAGE_BINDING : Nat := 8
/-- wgpu TextureUsages::RENDER_ATTACHMENT. -/
def TEX_RENDER_ATTACHMENT : Nat := 16

/-- Texture formats are represented by an opaque code; no claim in this file
inspects the structure of a format. -/
abbrev TextureFormat := Nat

/-- TextureConstraints (src/resources/texture.rs): accumulated constraints of
one virtual texture. -/
structure TextureConstraints where
  size : Option TextureSize
  min_size : Extent3d
  format : Option TextureFormat
  has_depth : Bool
  has_stencil : Bool
  min_mip_level_count : Nat
  min_sample_count : Nat
  min_usages : Nat
  multisampled : Bool
  sample_type : TextureSampleTypeConstraint
deriving DecidableEq

/-- Default for TextureConstraints (src/resources/texture.rs, impl Default). -/
instance : Inhabited TextureConstraints :=
  ⟨{ size := none
     min_size := ⟨1, 1, 1⟩
     format := none
     has_depth := false
     has_stencil := false
     min_mip_level_count := 1
     min_sample_count := 1
     min_usages := 0
     multisampled := false
     sample_type := .unconstrained }⟩

/-- TextureConstraints::set_min_size (src/resources/texture.rs): per-axis
maximum. -/
def set_min_size (c : TextureConstraints) (size : Extent3d) : TextureConstraints :=
  { c with min_size :=
      ⟨max c.min_size.width size.width,
       max c.min_size.height size.height,
       max c.min_size.depth_or_array_layers size.depth_or_array_layers⟩ }

/-- TextureConstraints::set_mip_count (src/resources/texture.rs): maximum. -/
def set_mip_count (c : TextureConstraints) (count : Nat) : TextureConstraints :=
  { c with min_mip_level_count := max c.min_mip_level_count count }

/-- TextureConstraints::set_copy_dst (src/resources/texture.rs). -/
def set_copy_dst (c : TextureConstraints) : TextureConstraints :=
  { c with min_usages := c.min_usages ||| TEX_COPY_DST }

/-- An abstract render command, mirroring RenderCommand
(src/commands/mod.rs).  Compute-pass inner commands are irrelevant to the
claims about the outer queue and are kept opaque as a count. -/
inductive RenderCommand where
  | writeBuffer (handle offset : Nat) (data : List Nat)
  | writeTexture (view : TextureCopyView) (data : List Nat)
      (layout : ImageDataLayout) (size : Extent3d)
  | copyBufferToBuffer (src src_offset dst dst_offset size : Nat)
  | computePass (label : Option String)
deriving DecidableEq

/-- NodeResourceAccess: the per-node pair of access bitsets (reads, writes)
over virtual-resource indices, used by graph.rs (declared in a resources
module; its two Bitset fields and empty-new constructor are visible from its
uses in src/graph.rs and src/commands/mod.rs).  Bitsets are modelled by
their set semantics. -/
structure NodeResourceAccess where
  reads : List Nat
  writes : List Nat
deriving DecidableEq

/-- Association-list get for SecondaryMap keyed by handle. -/
def tcGet (m : List (Nat × TextureConstraints)) (h : Nat) : TextureConstraints :=
  (((m.find? (fun e => e.1 = h)).map (·.2))).getD default

/-- Association-list set/insert for SecondaryMap keyed by handle. -/
def tcSet (m : List (Nat × TextureConstraints)) (h : Nat) (c : TextureConstraints) :
    List (Nat × TextureConstraints) :=
  if (m.find? (fun e => e.1 = h)).isSome then
    m.map (fun e => if e.1 = h then (h, c) else e)
  else
    m ++ [(h, c)]

/-- The slice of RenderCommands (src/commands/mod.rs) state that
write_texture and mark_resource_write touch: the command queue, the
texture-constraint table (entry-or-default semantics), the index of the node
currently recording, the per-node access sets, and the virtual-texture map
from texture handle to resource-list index. -/
structure RenderCommandsState where
  queue : List RenderCommand
  texture_constraints : List (Nat × TextureConstraints)
  node_index : Nat
  resource_accesses : List NodeResourceAccess
  virtual_textures : List (Nat × Nat)
deriving DecidableEq

/-- Bitset::insert on a semantically modelled bitset. -/
def bitsetInsert (s : List Nat) (i : Nat) : List Nat :=
  if i ∈ s then s else i :: s

/-- RenderCommands::mark_resource_write for a texture handle
(src/commands/mod.rs, lines 92-106): looks the resource index up in
virtual_textures and inserts it into the current node's write bitset. -/
def mark_texture_write (cmd : RenderCommandsState) (handle : Nat) :
    RenderCommandsState :=
  let index := (((cmd.virtual_textures.find? (fun e => e.1 = handle)).map (·.2))).getD 0
  let a := cmd.resource_accesses.getD cmd.node_index ⟨[], []⟩
  { cmd with resource_accesses :=
      cmd.resource_accesses.set cmd.node_index { a with writes := bitsetInsert a.writes index } }

/-- RenderCommands::write_texture (src/commands/mod.rs, lines 174-202):
fetches the texture's constraints (creating defaults on first touch), adds
COPY_DST, grows min_size to origin + extent on every axis, bumps the mip
count from the view's mip level, sets has_stencil / has_depth from the copy
aspect, and enqueues the WriteTexture command.  Note: the source performs no
mark_resource_write call here. -/
def write_texture (cmd : RenderCommandsState) (texture_view : TextureCopyView)
    (data : List Nat) (layout : ImageDataLayout) (size : Extent3d) :
    RenderCommandsState :=
  let c := tcGet cmd.texture_constraints texture_view.handle
  let c := set_copy_dst c
  let min_size : Extent3d :=
    ⟨texture_view.origin.x + size.width,
     texture_view.origin.y + size.height,
     texture_view.origin.z + size.depth_or_array_layers⟩
  let c := set_min_size c min_size
  let c := set_mip_count c texture_view.mip_level
  let c :=
    match texture_view.aspect with
    | .stencilOnly => { c with has_stencil := true }
    | .depthOnly => { c with has_depth := true }
    | _ => c
  { cmd with
    texture_constraints := tcSet cmd.texture_constraints texture_view.handle c
    queue := cmd.queue ++ [.writeTexture texture_view data layout size] }

/-! ## Bind-group layouts and dispatch-time binding validation
(src/resources/layout.rs, src/commands/compute_pass.rs) -/

/-- wgpu BufferBindingType. -/
inductive BufferBindingType where
  | uniform
  | storage (read_only : Bool)
deriving DecidableEq

/-- wgpu SamplerBindingType. -/
inductive SamplerBindingType where
  | filtering
  | nonFiltering
  | comparison
deriving DecidableEq

/-- wgpu StorageTextureAccess. -/
inductive StorageTextureAccess where
  | writeOnly
  | readOnly
  | readWrite
deriving DecidableEq

/-- wgpu BindingType: the type of a bind-group layout entry. -/
inductive BindingType where
  | buffer (ty : BufferBindingType) (has_dynamic_offset : Bool)
      (min_binding_size : Option Nat)
  | sampler (ty : SamplerBindingType)
  | texture (sample_type : TextureSampleType)
      (view_dimension : TextureViewDimension) (multisampled : Bool)
  | storageTexture (access : StorageTextureAccess) (format : TextureFormat)
      (view_dimension : TextureViewDimension)
deriving DecidableEq

/-- wgpu ShaderStages::COMPUTE. -/
def SHADER_STAGE_COMPUTE : Nat := 4

/-- wgpu BindGroupLayoutEntry. -/
structure LayoutEntry where
  binding : Nat
  visibility : Nat
  ty : BindingType
  count : Option Nat
deriving DecidableEq

/-- BindGroupLayout::entries (src/resources/layout.rs): the map from binding
slot to layout entry (a FastHashMap in the source), as an association list
queried by slot. -/
def entriesGet (entries : List (Nat × LayoutEntry)) (slot : Nat) : Option LayoutEntry :=
  ((entries.find? (fun e => e.1 = slot)).map (·.2))

/-- BufferUse::matches_use (src/resources/buffer.rs, lines 120-128). -/
def matches_use : BufferUse → BufferUse → Bool
  | .uniform, .uniform => true
  | .storage left, .storage right => left = right
  | .infer, _ => true
  | _, _ => false

/-- Validation of one provided (slot, resource) pair against the bind-group
layout, from the body of ComputePassCommands::dispatch
(src/commands/compute_pass.rs, lines 84-156).  A slot with no layout entry
is skipped (the shader may have stripped the slot).  Assertion failures of
the source are Except errors; the texture arms record the layout's view
dimension onto the binding. -/
def validate_binding (entries : List (Nat × LayoutEntry))
    (p : Nat × ResourceBinding) : Except String (Nat × ResourceBinding) :=
  match entriesGet entries p.1 with
  | none => .ok p
  | some entry =>
    match p.2, entry.ty with
    | .buffer handle offset size usage, .buffer ty _ min_binding_size =>
      let sizeOk : Bool :=
        match size, min_binding_size with
        | some binding, some min => decide (binding ≥ min)
        | _, _ => true
      if ¬ sizeOk then
        .error "attempted to bind fewer buffer bytes than the minimum binding size"
      else
        match ty with
        | .uniform =>
          if matches_use usage .uniform then
            .ok (p.1, .buffer handle offset size usage)
          else
            .error "buffer bound to uniform slot must be passed as a uniform"
        | .storage read_only =>
          if matches_use usage (.storage (if read_only then .read else .readWrite)) then
            .ok (p.1, .buffer handle offset size usage)
          else
            .error "buffer bound to storage slot must be passed as a storage with the same access mode"
    | .texture handle _ aspect base_mip mip_count base_layer layer_count,
      .texture _ view_dimension _ =>
      .ok (p.1, .texture handle (some view_dimension) aspect base_mip mip_count
        base_layer layer_count)
    | .texture handle _ aspect base_mip mip_count base_layer layer_count,
      .storageTexture _ _ view_dimension =>
      .ok (p.1, .texture handle (some view_dimension) aspect base_mip mip_count
        base_layer layer_count)
    | _, _ => .error "binding does not match slot type"

/-- The dispatch-time loop over the provided bindings of one group
(src/commands/compute_pass.rs, lines 84-156): each pair is validated in
order; the first failure aborts. -/
def validate_bindings (entries : List (Nat × LayoutEntry)) :
    List (Nat × ResourceBinding) → Except String (List (Nat × ResourceBinding))
  | [] => .ok []
  | p :: rest =>
    match validate_binding entries p with
    | .error e => .error e
    | .ok p' => (validate_bindings entries rest).map (fun r => p' :: r)

/-! ## Shader reflection (src/resources/pipeline.rs) -/

/-- naga ResourceBinding: the (group, binding) address of a shader global. -/
structure ResourceBindingAddr where
  group : Nat
  binding : Nat
deriving DecidableEq

/-- naga ScalarKind. -/
inductive ScalarKind where
  | sint
  | uint
  | float
  | bool
deriving DecidableEq

/-- naga ImageDimension. -/
inductive ImageDimension where
  | d1
  | d2
  | d3
  | cube
deriving DecidableEq

/-- naga StorageAccess bitflags (LOAD, STORE). -/
structure StorageAccess where
  load : Bool
  store : Bool
deriving DecidableEq

/-- naga ImageClass. -/
inductive ImageClass where
  | sampled (kind : ScalarKind) (multi : Bool)
  | depth (multi : Bool)
  | storage (format : TextureFormat) (access : StorageAccess)
deriving DecidableEq

/-- The fragment of naga TypeInner that reflection inspects: images and
samplers (address space Handle) and sized data types (buffers); for the
latter only the byte size computed by ty.inner.size participates. -/
inductive NagaType where
  | image (dim : ImageDimension) (arrayed : Bool) (cls : ImageClass)
  | sampler (comparison : Bool)
  | data (size : Nat)
deriving DecidableEq

/-- naga AddressSpace (the variants reflection distinguishes). -/
inductive AddressSpace where
  | uniform
  | storage (access : StorageAccess)
  | handle
  | pushConstant
deriving DecidableEq

/-- naga GlobalVariable, restricted to what reflection reads. -/
structure GlobalVariable where
  binding : Option ResourceBindingAddr
  space : AddressSpace
  ty : NagaType
deriving DecidableEq

/-- naga SamplingKey: one (image, sampler) sampling pair of an entry point's
usage info. -/
structure SamplingKey where
  image : Nat
  sampler : Nat
deriving DecidableEq

/-- A placeholder global for out-of-range handle lookups (the source indexes
an arena and cannot miss). -/
def defaultGlobal : GlobalVariable := ⟨none, .handle, .sampler false⟩

/-- The filtered-sampling set (src/resources/pipeline.rs, lines 140-153):
the image handles of the sampling pairs whose sampler's binding is not in
the caller's non-filtering set.  Globals are addressed by index. -/
def filteredSet (globals : List GlobalVariable) (sampling_set : List SamplingKey)
    (nonfiltering_samplers : List ResourceBindingAddr) : List Nat :=
  sampling_set.filterMap (fun key =>
    let sampler := globals.getD key.sampler defaultGlobal
    match sampler.ty, sampler.binding with
    | .sampler _, some b =>
      if b ∈ nonfiltering_samplers then none else some key.image
    | _, _ => none)

/-- match_image's view-dimension table (src/resources/pipeline.rs, lines
268-278); the other combinations are unreachable for valid modules. -/
def view_dim_of : ImageDimension → Bool → Option TextureViewDimension
  | .d1, false => some .d1
  | .d2, false => some .d2
  | .d2, true => some .d2Array
  | .d3, false => some .d3
  | .cube, false => some .cube
  | .cube, true => some .cubeArray
  | _, _ => none

/-- match_image (src/resources/pipeline.rs, lines 262-314).  The
unreachable arms of the source (bool images, invalid dim/arrayed pairs,
empty storage access) are none. -/
def match_image (dim : ImageDimension) (arrayed : Bool) (cls : ImageClass)
    (filtered : Bool) : Option BindingType :=
  match view_dim_of dim arrayed with
  | none => none
  | some view_dim =>
    match cls with
    | .sampled kind multi =>
      match kind with
      | .sint => some (.texture .sint view_dim multi)
      | .uint => some (.texture .uint view_dim multi)
      | .float => some (.texture (.float filtered) view_dim multi)
      | .bool => none
    | .depth multi => some (.texture .depth view_dim multi)
    | .storage format access =>
      if access = ⟨false, true⟩ then some (.storageTexture .writeOnly format view_dim)
      else if access = ⟨true, false⟩ then some (.storageTexture .readOnly format view_dim)
      else if access = ⟨true, true⟩ then some (.storageTexture .readWrite format view_dim)
      else none

/-- The byte size reflection computes for a global's type (ty.inner.size);
only data types carry one. -/
def typeSize : NagaType → Nat
  | .data s => s
  | _ => 0

/-- The binding type assigned to one used global
(src/resources/pipeline.rs, lines 168-204).  Handle is the global's index
(used for membership in the filtered-sampling set).  The expect/unreachable
and todo arms of the source are none. -/
def bindingTypeOf (nonfiltering_samplers : List ResourceBindingAddr)
    (filtered : List Nat) (handle : Nat) (g : GlobalVariable) :
    Option BindingType :=
  let size := typeSize g.ty
  match g.space with
  | .uniform =>
    if size = 0 then none
    else some (.buffer .uniform false (some size))
  | .storage access =>
    if size = 0 then none
    else some (.buffer (.storage (!access.load)) false (some size))
  | .handle =>
    match g.ty with
    | .image dim arrayed cls => match_image dim arrayed cls (handle ∈ filtered)
    | .sampler comparison =>
      match comparison, g.binding with
      | true, _ => some (.sampler .comparison)
      | false, some b =>
        some (.sampler (if b ∈ nonfiltering_samplers then .nonFiltering else .filtering))
      | false, none => none
    | .data _ => none
  | .pushConstant => none

/-- wgpu_core MAX_BIND_GROUPS. -/
def MAX_BIND_GROUPS : Nat := 8

/-- Reflection errors: the typed errors of PipelineError
(src/resources/pipeline.rs) that the modelled fragment can raise, plus a
marker for the panicking arms of the source (expect / unreachable / todo). -/
inductive ReflectError where
  | bindGroupTooHigh (group : Nat)
  | panicked
deriving DecidableEq

/-- The reflection loop over the used globals that carry a binding
(src/resources/pipeline.rs, lines 158-212); produces the (group, entry)
pairs that compute_pipeline_from_module distributes into the per-group
entry vectors.  Visibility is COMPUTE and count is None for every entry. -/
def reflectLoop (nonfiltering_samplers : List ResourceBindingAddr)
    (filtered : List Nat) :
    List (Nat × GlobalVariable) → Except ReflectError (List (Nat × LayoutEntry))
  | [] => .ok []
  | (handle, g) :: rest =>
    match g.binding with
    | none => reflectLoop nonfiltering_samplers filtered rest
    | some addr =>
      if addr.group ≥ MAX_BIND_GROUPS then .error (.bindGroupTooHigh addr.group)
      else
        match bindingTypeOf nonfiltering_samplers filtered handle g with
        | none => .error .panicked
        | some ty =>
          (reflectLoop nonfiltering_samplers filtered rest).map
            (fun l => (addr.group, ⟨addr.binding, SHADER_STAGE_COMPUTE, ty, none⟩) :: l)

/-- Entry reflection for a compute entry point, over the used globals of the
module (globals addressed by index): computes the filtered-sampling set and
runs the reflection loop over the globals that carry a binding
(src/resources/pipeline.rs, compute_pipeline_from_module, lines 128-212). -/
def reflect (nonfiltering_samplers : List ResourceBindingAddr)
    (sampling_set : List SamplingKey) (globals : List GlobalVariable) :
    Except ReflectError (List (Nat × LayoutEntry)) :=
  reflectLoop nonfiltering_samplers
    (filteredSet globals sampling_set nonfiltering_samplers)
    (globals.enum.filter (fun p => p.2.binding.isSome))

/-! ## The render graph and its compiler (src/graph.rs, src/node.rs,
src/named_slotmap.rs) -/

/-- Node metadata as used by RenderGraph::compile: the node's name, its
explicit before/after constraint names, and the per-node access sets its
recording closure produces (run_fn is abstracted by its effect on the
node's NodeResourceAccess: the sets of virtual-resource indices it reads
and writes). -/
structure RenderNodeMeta where
  name : String
  before : List String
  after : List String
  reads : List Nat
  writes : List Nat
deriving DecidableEq, Inhabited

/-- The node store of RenderGraph: a NamedSlotMap, with slotmap keys being
insertion indices (the graph never removes nodes). -/
abbrev RenderGraph := List RenderNodeMeta

/-- RenderGraph::add (src/graph.rs, lines 52-55): inserts the node into the
slotmap under a fresh key and points the name at that key (overwriting the
name entry if the name was already taken — NamedSlotMap::insert,
src/named_slotmap.rs, lines 24-29). -/
def RenderGraph.add (g : RenderGraph) (node : RenderNodeMeta) : RenderGraph :=
  g ++ [node]

/-- NamedSlotMap::get_key (src/named_slotmap.rs): the key the name map
holds for a name.  Since BTreeMap::insert overwrites, this is the key of
the most recently inserted node with that name. -/
def getKey (nodes : RenderGraph) (name : String) : Option Nat :=
  nodes.enum.foldl
    (fun acc p => if p.2.name = name then some p.1 else acc) none

/-- NamedSlotMap::get_name (src/named_slotmap.rs, lines 51-56): reverse
lookup of the name map.  The name map sends each present name to the key of
its last insertion, so a key k is hit exactly when the node at k is the
last insertion of its own name; the map holds at most one entry with value
k, making the source's find-first-in-name-order equal to this direct
formulation. -/
def getName (nodes : RenderGraph) (k : Nat) : Option String :=
  match nodes[k]? with
  | none => none
  | some nd => if getKey nodes nd.name = some k then some nd.name else none

/-- One step of the before-target collation: a resolvable before-name t
receives the current node's key in its dependency list (the for_each body
of src/graph.rs, lines 69-78). -/
def beforeStep (nodes : RenderGraph) (key : Nat) (deps : List (List Nat))
    (nm : String) : List (List Nat) :=
  match getKey nodes nm with
  | some t => deps.set t (deps.getD t [] ++ [key])
  | none => deps

/-- The dependency collation of RenderGraph::compile (src/graph.rs, lines
64-85): for each node in slotmap order, each resolvable before-target t
receives the node's key in its dependency list, and the node's own list is
extended with its resolvable after-targets.  Unresolvable names are
silently dropped (filter_map). -/
def collateDeps (nodes : RenderGraph) : List (List Nat) :=
  nodes.enum.foldl
    (fun deps p =>
      let deps := p.2.before.foldl (beforeStep nodes p.1) deps
      deps.set p.1 (deps.getD p.1 [] ++ p.2.after.filterMap (getKey nodes)))
    (List.replicate nodes.length [])

/-- The dependency list of one key. -/
def depsOf (nodes : RenderGraph) (k : Nat) : List Nat :=
  (collateDeps nodes).getD k []

/-- One scan over the dependency list of the node `next` during the
while-loop of the topological sort (src/graph.rs, lines 105-119): visited
dependencies are skipped unless they equal the DFS root key (a cycle,
reported as (root, next)); unvisited dependencies are pushed (returned in
push order) and marked visited. -/
def scanDeps : List Nat → List Nat → Nat → Nat →
    Except (Nat × Nat) (List Nat × List Nat)
  | [], visited, _, _ => .ok ([], visited)
  | d :: rest, visited, root, next =>
    if d ∈ visited then
      if d = root then .error (root, next)
      else scanDeps rest visited root next
    else
      match scanDeps rest (d :: visited) root next with
      | .ok (news, visited') => .ok (d :: news, visited')
      | .error e => .error e

/-- The pointer-driven while-loop of the topological sort (src/graph.rs,
lines 100-121): the stack is scanned front to back; scanning a node pushes
its unvisited dependencies onto the back.  `pending` is the unscanned
suffix of the stack and `order` the whole stack in push order.  The loop
terminates because every push marks a fresh node visited; fuel bounds the
number of scans and is chosen large enough by the caller. -/
def bfsLoop (deps : List (List Nat)) (root : Nat) :
    Nat → List Nat → List Nat → List Nat →
    Except (Nat × Nat) (List Nat × List Nat)
  | _, [], visited, order => .ok (order, visited)
  | 0, _ :: _, visited, order => .ok (order, visited)
  | fuel + 1, x :: pending, visited, order =>
    match scanDeps (deps.getD x []) visited root x with
    | .error e => .error e
    | .ok (news, visited') =>
      bfsLoop deps root fuel (pending ++ news) visited' (order ++ news)

/-- The outer loop of the topological sort (src/graph.rs, lines 95-127):
every key in slotmap order starts a traversal unless already visited; after
a traversal the stack is drained by popping, appending the reverse of the
push order to the execution order. -/
def topoOuter (deps : List (List Nat)) (fuel : Nat) :
    List Nat → List Nat → List Nat → Except (Nat × Nat) (List Nat)
  | [], _, acc => .ok acc
  | r :: roots, visited, acc =>
    if r ∈ visited then topoOuter deps fuel roots visited acc
    else
      match bfsLoop deps r fuel [r] (r :: visited) [r] with
      | .error e => .error e
      | .ok (batch, visited') => topoOuter deps fuel roots visited' (acc ++ batch.reverse)

/-- The topological-sort phase of RenderGraph::compile: keys in insertion
order, with enough fuel for the node count. -/
def topoSort (nodes : RenderGraph) : Except (Nat × Nat) (List Nat) :=
  topoOuter (collateDeps nodes) (nodes.length + 1)
    (List.range nodes.length) [] []

/-- The stack-driven DFS that collects the reflexive-transitive dependency
closure of one execution position (src/graph.rs, lines 179-195): pop,
skip if already present, otherwise insert and push the positions of the
node's dependencies.  The source pushes dependencies in list order onto a
stack popped from the back, so the head-modelled stack receives them
reversed.  Fuel bounds the number of iterations and is chosen large enough
by the caller. -/
def dfsClosure (nbr : Nat → List Nat) : Nat → List Nat → List Nat → List Nat
  | 0, _, b => b
  | _ + 1, [], b => b
  | fuel + 1, x :: stack, b =>
    if x ∈ b then dfsClosure nbr fuel stack b
    else dfsClosure nbr fuel ((nbr x).reverse ++ stack) (x :: b)

/-- The position-space neighbour function of the ambiguity analysis: the
dependencies of the node at position i, mapped through nodes_indices. -/
def posNbr (nodes : RenderGraph) (order : List Nat) (i : Nat) : List Nat :=
  (depsOf nodes (order.getD i 0)).map (fun dep => order.indexOf dep)

/-- Fuel sufficient for dfsClosure over a ground set of size n: one more
than the worst-case iteration count. -/
def dfsFuel (nbr : Nat → List Nat) (n : Nat) : Nat :=
  1 + n + (((List.range n).map (fun i => 1 + (nbr i).length)).sum)

/-- all_dependencies[i] of the ambiguity analysis (src/graph.rs, lines
180-195): the reflexive-transitive closure of position i under the
position-space dependency relation. -/
def ancSet (nodes : RenderGraph) (order : List Nat) (i : Nat) : List Nat :=
  dfsClosure (posNbr nodes order) (dfsFuel (posNbr nodes order) order.length) [i] []

/-- Bitset::intersects_with on semantically modelled bitsets. -/
def intersects (xs ys : List Nat) : Bool := xs.any (fun x => x ∈ ys)

/-- The access sets recorded for execution position p: the recording pass
runs the node order[p] with node_index = p, and the node's run_fn populates
resource_accesses[p] with its read/write sets (Phase C of compile,
src/graph.rs, lines 155-174). -/
def accessAt (nodes : RenderGraph) (order : List Nat) (p : Nat) : NodeResourceAccess :=
  let nd := nodes.getD (order.getD p 0) default
  ⟨nd.reads, nd.writes⟩

/-- do_nodes_conflict (src/graph.rs, lines 472-478). -/
def do_nodes_conflict (nodes : RenderGraph) (order : List Nat)
    (left right : Nat) : Bool :=
  let l := accessAt nodes order left
  let r := accessAt nodes order right
  intersects l.reads r.writes || intersects r.reads l.writes ||
    intersects l.writes r.writes

/-- The ambiguity scan of compile (src/graph.rs, lines 197-209): for every
position index_a and every index_b outside its ancestor set (ascending, as
produced by Bitset::inverted().iter()), if index_a is also outside
index_b's ancestor set and the two nodes conflict, the pair of their names
is recorded. -/
def ambiguities (nodes : RenderGraph) (order : List Nat) : List (String × String) :=
  (List.range order.length).flatMap (fun a =>
    ((List.range order.length).filter
        (fun j => ¬ j ∈ ancSet nodes order a)).filterMap (fun b =>
      if a ∈ ancSet nodes order b then none
      else if do_nodes_conflict nodes order a b then
        some ((getName nodes (order.getD a 0)).getD "",
          (getName nodes (order.getD b 0)).getD "")
      else none))

/-- RenderGraphError (src/graph.rs), restricted to the variants the
modelled phases can produce. -/
inductive RenderGraphError where
  | cycleDetected (a b : String)
  | writeOrderAmbiguity (pairs : List (String × String))
deriving DecidableEq

/-- RenderGraph::compile (src/graph.rs, lines 57-259) through its ordering,
recording and ambiguity phases: collate dependencies, topologically sort
with cycle detection (a cycle aborts with the names of the root and the
scanned node), run the nodes in order (abstracted into accessAt), then
fail if any write-order ambiguity was recorded, otherwise return the
execution order.  The final texture-constraint verification acts on
texture state outside this model and cannot fire for the node sets the
claims quantify over. -/
def RenderGraph.compile (nodes : RenderGraph) : Except RenderGraphError (List Nat) :=
  match topoSort nodes with
  | .error p =>
    .error (.cycleDetected ((getName nodes p.1).getD "") ((getName nodes p.2).getD ""))
  | .ok order =>
    let ambs := ambiguities nodes order
    if ambs.isEmpty then .ok order else .error (.writeOrderAmbiguity ambs)

/-- The step relation of the collated dependency graph: b is a direct
dependency of a. -/
def depStep (nodes : RenderGraph) (a b : Nat) : Prop :=
  b ∈ depsOf nodes a

/-- Acyclicity of the explicit ordering constraints: no key transitively
depends on itself. -/
def Acyclic (nodes : RenderGraph) : Prop :=
  ∀ i, ¬ Relation.TransGen (depStep nodes) i i

/-! ## Derived notions used by the theorems -/

/-- Superset of flags, stated bit-by-bit. -/
def FlagsSuperset (big small : Nat) : Prop :=
  ∀ i, small.testBit i = true → big.testBit i = true

/-- The step relation of a neighbour function: y is a direct neighbour
of x. -/
def stepR (nbr : Nat → List Nat) (x y : Nat) : Prop := y ∈ nbr x

/-- Reachability in position space under the ambiguity analysis's
dependency relation: j is a (reflexive-)transitive dependency of
position i. -/
def PosReach (nodes : RenderGraph) (order : List Nat) (i j : Nat) : Prop :=
  Relation.ReflTransGen (stepR (posNbr nodes order)) i j

/-- Termination measure of the stack-driven DFS: pending stack entries plus
scan budget of the not-yet-collected vertices. -/
def dfsMeasure (nbr : Nat → List Nat) (n : Nat) (stack b : List Nat) : Nat :=
  stack.length +
    ∑ i in (Finset.range n).filter (fun i => i ∉ b), (1 + (nbr i).length)

/-- Every node has at most one collated dependency: its after-list resolves
to at most one target and no other node points at it with before, or the
other way around. -/
def DepsAtMostOne (nodes : RenderGraph) : Prop :=
  ∀ l ∈ collateDeps nodes, l.length ≤ 1

/-- Executable reachable set of the collated dependency graph from one
key. -/
def reachesFrom (nodes : RenderGraph) (j : Nat) : List Nat :=
  dfsClosure (depsOf nodes) (dfsFuel (depsOf nodes) nodes.length) [j] []

/-- Executable cycle check on the collated dependency graph. -/
def hasCycleB (nodes : RenderGraph) : Bool :=
  (List.range nodes.length).any
    (fun i => (depsOf nodes i).any (fun j => i ∈ reachesFrom nodes j))

/-- An execution order respects the collated dependencies when every
dependency of a scheduled key is scheduled strictly earlier (positions are
indices in the order, as recorded by nodes_indices). -/
def RespectsDeps (nodes : RenderGraph) (l : List Nat) : Prop :=
  ∀ x ∈ l, ∀ d ∈ depsOf nodes x, d ∈ l ∧ l.indexOf d < l.indexOf x

/-- One dependency table extends another when every per-key list of the
first is a prefix of the corresponding list of the second (collation only
ever appends). -/
def DepsExt (d d' : List (List Nat)) : Prop :=
  ∀ i, ∃ suf, d'.getD i [] = d.getD i [] ++ suf

/-! ## Theorems -/

/-! ### Claim C7: the sample-type compatibility ladder -/

theorem flagsContains_iff_superset (a b : Nat) :
    flagsContains a b = true ↔ FlagsSuperset a b := by
  unfold flagsContains FlagsSuperset
  rw [decide_eq_true_eq]
  constructor
  · intro h i hb
    have := congrArg (fun n => Nat.testBit n i) h
    simp only [Nat.testBit_and] at this
    cases ha : a.testBit i with
    | true => rfl
    | false => rw [ha, hb] at this; simp at this
  · intro h
    apply Nat.eq_of_testBit_eq
    intro i
    simp only [Nat.testBit_and]
    cases hb : b.testBit i with
    | true => rw [h i hb]; rfl
    | false => simp

/-- Claim C7: TextureConstraints::set_sample_type follows the compatibility
ladder: from Constrained(Float{filterable:false}) an incoming
Float{filterable:true} or Depth upgrades the constraint to the incoming
type; Depth is compatible with incoming Depth and Float{filterable:false};
an incoming type equal to the stored one leaves it constrained; every other
cross-kind pair transitions to Conflicted(old, new); and a Conflicted
constraint is never changed by later calls, preserving the two originally
conflicting inputs. -/
theorem claim_C7_set_sample_type_ladder :
    (set_sample_type (.constrained (.float false)) (.float true)
        = .constrained (.float true)
      ∧ set_sample_type (.constrained (.float false)) .depth
        = .constrained .depth)
    ∧ (set_sample_type (.constrained .depth) .depth = .constrained .depth
      ∧ set_sample_type (.constrained .depth) (.float false)
        = .constrained .depth)
    ∧ (∀ t, set_sample_type (.constrained t) t = .constrained t)
    ∧ (∀ a b, sampleKind a ≠ sampleKind b →
        ¬(a = .float false ∧ b = .depth) →
        ¬(a = .depth ∧ b = .float false) →
        set_sample_type (.constrained a) b = .conflicted a b)
    ∧ (∀ a b t, set_sample_type (.conflicted a b) t = .conflicted a b) := by
  refine ⟨⟨rfl, rfl⟩, ⟨rfl, rfl⟩, ?_, ?_, ?_⟩
  · intro t
    cases t with
    | float f => cases f <;> rfl
    | depth => rfl
    | uint => rfl
    | sint => rfl
  · intro a b ha hb hc
    cases a with
    | float fa =>
      cases b with
      | float fb => simp [sampleKind] at ha
      | depth =>
        cases fa with
        | false => exact absurd ⟨rfl, rfl⟩ hb
        | true => rfl
      | uint => cases fa <;> rfl
      | sint => cases fa <;> rfl
    | depth =>
      cases b with
      | float fb =>
        cases fb with
        | false => exact absurd ⟨rfl, rfl⟩ hc
        | true => rfl
      | depth => simp [sampleKind] at ha
      | uint => rfl
      | sint => rfl
    | uint => cases b with
      | float fb => cases fb <;> rfl
      | depth => rfl
      | uint => simp [sampleKind] at ha
      | sint => rfl
    | sint => cases b with
      | float fb => cases fb <;> rfl
      | depth => rfl
      | uint => rfl
      | sint => simp [sampleKind] at ha
  · intro a b t
    rfl

/-- Witness for claim C7 at a concrete cross-kind pair. -/
theorem claim_C7_witness :
    set_sample_type (.constrained .uint) .sint = .conflicted .uint .sint :=
  claim_C7_set_sample_type_ladder.2.2.2.1 .uint .sint
    (by decide) (by decide) (by decide)

/-! ### Claim C6: retained-buffer verification and transient creation -/

/-- Claim C6: at Compilation::run, a retained buffer supplied for a virtual
buffer is accepted exactly when its size reaches the accumulated minimum
size and its usage flags are a superset of the accumulated minimum usages;
a rejected buffer yields TooSmall(name, actual, min) or
MissingUsages(name, missing flags) where the missing flags are the
accumulated ones the buffer lacks; with no retained buffer a transient is
created with exactly the accumulated (min_size, min_usages) and is not
mapped at creation. -/
theorem verify_retained_none_iff (c : BufferConstraints) (buf : WBuffer)
    (name : String) :
    verify_retained c buf name = none ↔
      c.min_size ≤ buf.size ∧ flagsContains buf.usage c.min_usages = true := by
  unfold verify_retained
  constructor
  · intro h
    by_cases hs : buf.size < c.min_size
    · rw [if_pos hs] at h
      exact absurd h (by simp)
    · rw [if_neg hs] at h
      by_cases hu : flagsContains buf.usage c.min_usages = true
      · exact ⟨Nat.le_of_not_lt hs, hu⟩
      · rw [if_pos (by simpa using hu)] at h
        exact absurd h (by simp)
  · intro h
    rw [if_neg (by omega), if_neg (by simp [h.2])]

theorem claim_C6_buffer_materialization (c : BufferConstraints) (name : String) :
    (∀ buf : WBuffer,
      (materializeBuffer (some buf) c name = .ok (.retained buf) ↔
        c.min_size ≤ buf.size ∧ FlagsSuperset buf.usage c.min_usages)
      ∧ (materializeBuffer (some buf) c name
            = .error (.tooSmall name buf.size c.min_size)
        ∨ materializeBuffer (some buf) c name
            = .error (.missingUsages name (flagsDifference c.min_usages buf.usage))
        ∨ materializeBuffer (some buf) c name = .ok (.retained buf)))
    ∧ materializeBuffer none c name
        = .ok (.transient ⟨c.min_size, c.min_usages, false⟩) := by
  refine ⟨fun buf => ⟨?_, ?_⟩, rfl⟩
  · constructor
    · intro h
      have hv : verify_retained c buf name = none := by
        simp only [materializeBuffer] at h
        cases hv : verify_retained c buf name with
        | none => rfl
        | some e =>
          rw [hv] at h
          exact absurd h (by simp)
      rcases (verify_retained_none_iff c buf name).1 hv with ⟨h1, h2⟩
      exact ⟨h1, (flagsContains_iff_superset _ _).1 h2⟩
    · intro h
      have hv : verify_retained c buf name = none :=
        (verify_retained_none_iff c buf name).2
          ⟨h.1, (flagsContains_iff_superset _ _).2 h.2⟩
      simp only [materializeBuffer]
      rw [hv]
  · simp only [materializeBuffer, verify_retained]
    by_cases hs : buf.size < c.min_size
    · rw [if_pos hs]
      exact Or.inl rfl
    · rw [if_neg hs]
      by_cases hu : flagsContains buf.usage c.min_usages = true
      · rw [if_neg (by simp [hu])]
        exact Or.inr (Or.inr rfl)
      · rw [if_pos (by simpa using hu)]
        exact Or.inr (Or.inl rfl)

/-- Witness for claim C6 at a concrete retained buffer and constraint set:
constraints {min_size 16, min_usages COPY_DST(8)}, retained buffer of size
8 is rejected as TooSmall, and a big enough buffer with the right flags is
accepted. -/
theorem claim_C6_witness :
    materializeBuffer (some ⟨16, 8⟩) ⟨16, 8⟩ "staging" = .ok (.retained ⟨16, 8⟩) :=
  ((claim_C6_buffer_materialization ⟨16, 8⟩ "staging").1 ⟨16, 8⟩).1.2
    ⟨by decide, by intro i h; exact h⟩

/-! ### Claim C4: bind-group cache keying -/

theorem getElem?_some_lt {α : Type} {l : List α} {n : Nat} {a : α}
    (h : l[n]? = some a) : n < l.length := by
  by_contra hn
  rw [List.getElem?_eq_none (by omega)] at h
  exact absurd h (by simp)

theorem getElem?_append_of_lt {α : Type} {l1 l2 : List α} {n : Nat}
    (h : n < l1.length) : (l1 ++ l2)[n]? = l1[n]? := by
  rw [List.getElem?_append]
  rw [if_pos h]

theorem get_handle_hit {c : BindGroupCache} {r : List (Nat × ResourceBinding)}
    {h : Nat} (layout : Nat) (hf : revGet c.reverse r = some h) :
    get_handle c layout r = (h, c) := by
  unfold get_handle
  rw [hf]

theorem get_handle_miss {c : BindGroupCache} {r : List (Nat × ResourceBinding)}
    (layout : Nat) (hf : revGet c.reverse r = none) :
    get_handle c layout r =
      (c.groups.length,
        ⟨c.groups ++ [(layout, r)], (r, c.groups.length) :: c.reverse⟩) := by
  unfold get_handle
  rw [hf]

theorem cacheWF_new : CacheWF BindGroupCache.new := by
  intro e he
  simp [BindGroupCache.new] at he

theorem cacheWF_handle_lt {c : BindGroupCache} (h : CacheWF c) :
    ∀ e ∈ c.reverse, e.2 < c.groups.length := by
  intro e he
  obtain ⟨g, hg, -⟩ := h e he
  exact getElem?_some_lt hg

theorem revGet_mem {rev : List (List (Nat × ResourceBinding) × Nat)}
    {r : List (Nat × ResourceBinding)} {h : Nat} (hf : revGet rev r = some h) :
    (r, h) ∈ rev := by
  unfold revGet at hf
  cases he : rev.find? (fun e => e.1 = r) with
  | none => rw [he] at hf; exact absurd hf (by simp)
  | some e =>
    rw [he] at hf
    have hmem := List.mem_of_find?_eq_some he
    have hkey := List.find?_some he
    simp only [Option.map_some'] at hf
    cases hf
    have : e.1 = r := by simpa using hkey
    rw [← this]
    simpa using hmem

theorem cacheWF_get_handle {c : BindGroupCache} (h : CacheWF c)
    (layout : Nat) (r : List (Nat × ResourceBinding)) :
    CacheWF (get_handle c layout r).2 := by
  cases hf : revGet c.reverse r with
  | some handle =>
    rw [get_handle_hit layout hf]
    exact h
  | none =>
    rw [get_handle_miss layout hf]
    intro e he
    simp only at he
    rcases List.mem_cons.mp he with he | he
    · subst he
      refine ⟨(layout, r), ?_, rfl⟩
      simp
    · obtain ⟨g, hg, hk⟩ := h e he
      refine ⟨g, ?_, hk⟩
      rw [getElem?_append_of_lt (getElem?_some_lt hg)]
      exact hg

/-- Claim C4 (amended): the bind-group cache is keyed by the ordered binding
vector alone.  In any well-formed cache state (every state reachable from
BindGroupCache::new), a second get_handle request with an equal binding
vector returns the first request's handle — whatever layout either request
passes — and a second request with a different binding vector returns a
distinct handle. -/
theorem claim_C4_cache_keyed_by_bindings (c : BindGroupCache) (hwf : CacheWF c)
    (layout1 layout2 : Nat) (r1 r2 : List (Nat × ResourceBinding)) :
    (get_handle (get_handle c layout1 r1).2 layout2 r1).1
        = (get_handle c layout1 r1).1
    ∧ (r1 ≠ r2 →
      (get_handle (get_handle c layout1 r1).2 layout2 r2).1
          ≠ (get_handle c layout1 r1).1) := by
  constructor
  · cases hf : revGet c.reverse r1 with
    | some h1 =>
      rw [get_handle_hit layout1 hf, get_handle_hit layout2 hf]
    | none =>
      rw [get_handle_miss layout1 hf]
      have hagain : revGet ((r1, c.groups.length) :: c.reverse) r1
          = some c.groups.length := by
        unfold revGet
        rw [List.find?_cons_of_pos _ (by simp)]
        rfl
      rw [get_handle_hit layout2 hagain]
  · intro hne
    cases hf1 : revGet c.reverse r1 with
    | some h1 =>
      rw [get_handle_hit layout1 hf1]
      have hlt1 : h1 < c.groups.length := cacheWF_handle_lt hwf _ (revGet_mem hf1)
      cases hf2 : revGet c.reverse r2 with
      | some h2 =>
        rw [get_handle_hit layout2 hf2]
        intro heq
        simp only at heq
        subst heq
        obtain ⟨g1, hg1, hk1⟩ := hwf _ (revGet_mem hf1)
        obtain ⟨g2, hg2, hk2⟩ := hwf _ (revGet_mem hf2)
        rw [hg1] at hg2
        cases hg2
        simp only at hk1 hk2
        exact hne (hk1.symm.trans hk2)
      | none =>
        rw [get_handle_miss layout2 hf2]
        intro heq
        simp only at heq
        omega
    | none =>
      rw [get_handle_miss layout1 hf1]
      have hr2 : revGet ((r1, c.groups.length) :: c.reverse) r2
          = revGet c.reverse r2 := by
        unfold revGet
        rw [List.find?_cons_of_neg _ (by simpa using hne)]
      cases hf2 : revGet c.reverse r2 with
      | some h2 =>
        have hlt2 : h2 < c.groups.length := cacheWF_handle_lt hwf _ (revGet_mem hf2)
        rw [get_handle_hit layout2 (hr2.trans hf2)]
        intro heq
        simp only at heq
        omega
      | none =>
        rw [get_handle_miss layout2 (hr2.trans hf2)]
        intro heq
        simp only [List.length_append, List.length_cons, List.length_nil] at heq
        omega

/-- Counterexample for claim C4 as stated: starting from the empty cache,
two requests with the same binding vector but different layout handles
return the same handle, contradicting the claim that requests differing in
layout return distinct handles. -/
theorem claim_C4_counterexample :
    (get_handle (get_handle BindGroupCache.new 0 [(0, .buffer 0 0 none .uniform)]).2
        1 [(0, .buffer 0 0 none .uniform)]).1
      = (get_handle BindGroupCache.new 0 [(0, .buffer 0 0 none .uniform)]).1
    ∧ (0 : Nat) ≠ 1 := by
  exact ⟨by decide, by decide⟩

/-- Witness for claim C4's amended theorem on the empty cache with two
distinct binding vectors. -/
theorem claim_C4_witness :
    (get_handle (get_handle BindGroupCache.new 0 [(0, .buffer 0 0 none .uniform)]).2
        0 [(1, .buffer 0 0 none .uniform)]).1
      ≠ (get_handle BindGroupCache.new 0 [(0, .buffer 0 0 none .uniform)]).1 :=
  (claim_C4_cache_keyed_by_bindings BindGroupCache.new cacheWF_new 0 0
    [(0, .buffer 0 0 none .uniform)] [(1, .buffer 0 0 none .uniform)]).2
    (by decide)

/-! ### Claim C5: RenderCommands::write_texture -/

theorem find?_set_eq (h : Nat) (c : TextureConstraints) :
    ∀ m : List (Nat × TextureConstraints),
      (m.map (fun e => if e.1 = h then (h, c) else e)).find? (fun e => e.1 = h)
        = (m.find? (fun e => e.1 = h)).map (fun _ => (h, c)) := by
  intro m
  induction m with
  | nil => rfl
  | cons e rest ih =>
    by_cases he : e.1 = h
    · simp only [List.map_cons, if_pos he]
      rw [List.find?_cons_of_pos _ (by simp), List.find?_cons_of_pos _ (by simp [he])]
      rfl
    · simp only [List.map_cons, if_neg he]
      rw [List.find?_cons_of_neg _ (by simp [he]), List.find?_cons_of_neg _ (by simp [he])]
      exact ih

theorem find?_append_none {α : Type} {p : α → Bool} {l1 l2 : List α}
    (h : l1.find? p = none) : (l1 ++ l2).find? p = l2.find? p := by
  induction l1 with
  | nil => rfl
  | cons a rest ih =>
    rw [List.find?_cons] at h
    cases hp : p a with
    | true => rw [hp] at h; exact absurd h (by simp)
    | false =>
      rw [hp] at h
      rw [List.cons_append, List.find?_cons, hp]
      exact ih h

theorem tcGet_tcSet (m : List (Nat × TextureConstraints)) (h : Nat)
    (c : TextureConstraints) : tcGet (tcSet m h c) h = c := by
  unfold tcGet tcSet
  by_cases hf : (m.find? (fun e => e.1 = h)).isSome
  · rw [if_pos hf]
    obtain ⟨e, he⟩ := Option.isSome_iff_exists.mp hf
    rw [find?_set_eq, he]
    rfl
  · rw [if_neg hf]
    rw [Option.not_isSome_iff_eq_none] at hf
    rw [find?_append_none hf]
    rw [List.find?_cons_of_pos _ (by simp)]
    rfl

/-- Claim C5, evaluated against the code: write_texture updates the
texture's constraints exactly as the claim states — min_size grows to cover
origin + extent on every axis, COPY_DST joins min_usages,
min_mip_level_count is bumped from the view's mip level and
has_depth / has_stencil are set from the copy aspect — but, contradicting
the claim's final conjunct (and unlike write_buffer and
copy_buffer_to_buffer in the same file, which call mark_resource_write),
the per-node access sets are left completely unchanged: the texture is
never marked as written by the current node. -/
theorem claim_C5_write_texture_updates_constraints_but_never_marks_write
    (cmd : RenderCommandsState) (view : TextureCopyView) (data : List Nat)
    (layout : ImageDataLayout) (size : Extent3d) :
    (let old := tcGet cmd.texture_constraints view.handle
     let new := tcGet (write_texture cmd view data layout size).texture_constraints
        view.handle
     new.min_size.width = max old.min_size.width (view.origin.x + size.width)
     ∧ new.min_size.height = max old.min_size.height (view.origin.y + size.height)
     ∧ new.min_size.depth_or_array_layers =
        max old.min_size.depth_or_array_layers
          (view.origin.z + size.depth_or_array_layers)
     ∧ new.min_usages = old.min_usages ||| TEX_COPY_DST
     ∧ new.min_mip_level_count = max old.min_mip_level_count view.mip_level
     ∧ new.has_depth = (old.has_depth || decide (view.aspect = .depthOnly))
     ∧ new.has_stencil = (old.has_stencil || decide (view.aspect = .stencilOnly))
     ∧ (write_texture cmd view data layout size).queue
        = cmd.queue ++ [.writeTexture view data layout size])
    ∧ (write_texture cmd view data layout size).resource_accesses
        = cmd.resource_accesses := by
  refine ⟨?_, rfl⟩
  simp only [write_texture]
  rw [tcGet_tcSet]
  cases view with
  | mk handle mip_level origin aspect =>
    cases aspect <;>
      simp [set_copy_dst, set_min_size, set_mip_count, Nat.max_comm]

/-! ### Claim C9: dispatch validation skips slots absent from the layout -/

theorem validate_bindings_cons (entries : List (Nat × LayoutEntry))
    (p : Nat × ResourceBinding) (l : List (Nat × ResourceBinding)) :
    validate_bindings entries (p :: l) =
      match validate_binding entries p with
      | .error e => .error e
      | .ok p' => (validate_bindings entries l).map (fun r => p' :: r) := rfl

/-- Claim C9: during dispatch validation of a bound group, a provided
(slot, binding) pair whose slot has no entry in the group's bind-group
layout is ignored: on its own it validates successfully and unchanged, and
within any binding list it neither fails nor alters the outcome for the
other bindings — the result is the result of validating the list without
it, with the pair passed through unchanged at its position. -/
theorem claim_C9_missing_layout_entry_is_skipped
    (entries : List (Nat × LayoutEntry)) (s : Nat) (b : ResourceBinding)
    (hmiss : entriesGet entries s = none) :
    validate_binding entries (s, b) = .ok (s, b)
    ∧ ∀ l1 l2 : List (Nat × ResourceBinding),
      validate_bindings entries (l1 ++ (s, b) :: l2)
        = (validate_bindings entries (l1 ++ l2)).map
            (fun r => r.take l1.length ++ (s, b) :: r.drop l1.length) := by
  have hskip : validate_binding entries (s, b) = .ok (s, b) := by
    unfold validate_binding
    rw [hmiss]
  refine ⟨hskip, ?_⟩
  intro l1
  induction l1 with
  | nil =>
    intro l2
    simp only [List.nil_append, List.length_nil, List.take_zero, List.drop_zero]
    rw [validate_bindings_cons, hskip]
  | cons p rest ih =>
    intro l2
    simp only [List.cons_append, validate_bindings_cons]
    cases hv : validate_binding entries p with
    | error e => rfl
    | ok p' =>
      rw [ih l2]
      cases validate_bindings entries (rest ++ l2) with
      | error e => rfl
      | ok r =>
        simp [Except.map, List.take_succ_cons, List.drop_succ_cons]

/-- Witness for claim C9: one buffer binding at a slot with no layout entry,
inserted between two empty sublists, validates to itself. -/
theorem claim_C9_witness :
    validate_bindings [] ([] ++ (0, .buffer 3 0 none .infer) :: [])
      = (validate_bindings [] ([] ++ [])).map
          (fun r => r.take 0 ++ (0, .buffer 3 0 none .infer) :: r.drop 0) :=
  (claim_C9_missing_layout_entry_is_skipped [] 0 (.buffer 3 0 none .infer)
    (by decide)).2 [] []

/-! ### Claim C8: non-filtering samplers in reflection -/

theorem filteredSet_mem (globals : List GlobalVariable)
    (sampling_set : List SamplingKey) (nf : List ResourceBindingAddr) (x : Nat) :
    x ∈ filteredSet globals sampling_set nf ↔
      ∃ key ∈ sampling_set, key.image = x ∧ ∃ cmp addr,
        (globals.getD key.sampler defaultGlobal).ty = .sampler cmp ∧
        (globals.getD key.sampler defaultGlobal).binding = some addr ∧
        addr ∉ nf := by
  unfold filteredSet
  rw [List.mem_filterMap]
  constructor
  · rintro ⟨key, hk, hf⟩
    simp only at hf
    refine ⟨key, hk, ?_⟩
    cases hty : (globals.getD key.sampler defaultGlobal).ty with
    | sampler cmp =>
      cases hb : (globals.getD key.sampler defaultGlobal).binding with
      | some addr =>
        rw [hty, hb] at hf
        have hf' : (if addr ∈ nf then none else some key.image) = some x := hf
        by_cases hmem : addr ∈ nf
        · rw [if_pos hmem] at hf'
          exact absurd hf' (by simp)
        · rw [if_neg hmem] at hf'
          have hx : key.image = x := by simpa using hf'
          exact ⟨hx, cmp, addr, rfl, rfl, hmem⟩
      | none =>
        rw [hty, hb] at hf
        exact absurd hf (by simp)
    | image dim arrayed cls =>
      rw [hty] at hf
      cases hb : (globals.getD key.sampler defaultGlobal).binding with
      | some addr => rw [hb] at hf; exact absurd hf (by simp)
      | none => rw [hb] at hf; exact absurd hf (by simp)
    | data sz =>
      rw [hty] at hf
      cases hb : (globals.getD key.sampler defaultGlobal).binding with
      | some addr => rw [hb] at hf; exact absurd hf (by simp)
      | none => rw [hb] at hf; exact absurd hf (by simp)
  · rintro ⟨key, hk, hx, cmp, addr, hty, hb, hmem⟩
    refine ⟨key, hk, ?_⟩
    simp only
    rw [hty, hb]
    show (if addr ∈ nf then none else some key.image) = some x
    rw [if_neg hmem, hx]

theorem reflectLoop_cons_nobind {nf : List ResourceBindingAddr}
    {filtered : List Nat} {h : Nat} {g : GlobalVariable}
    {rest : List (Nat × GlobalVariable)} (hb : g.binding = none) :
    reflectLoop nf filtered ((h, g) :: rest) = reflectLoop nf filtered rest := by
  simp only [reflectLoop, hb]

theorem reflectLoop_cons_bind {nf : List ResourceBindingAddr}
    {filtered : List Nat} {h : Nat} {g : GlobalVariable}
    {rest : List (Nat × GlobalVariable)} {addr : ResourceBindingAddr}
    (hb : g.binding = some addr) :
    reflectLoop nf filtered ((h, g) :: rest) =
      if addr.group ≥ MAX_BIND_GROUPS then .error (.bindGroupTooHigh addr.group)
      else
        match bindingTypeOf nf filtered h g with
        | none => .error .panicked
        | some ty =>
          (reflectLoop nf filtered rest).map
            (fun l => (addr.group,
              ⟨addr.binding, SHADER_STAGE_COMPUTE, ty, none⟩) :: l) := by
  simp only [reflectLoop, hb]

theorem reflectLoop_mem (nf : List ResourceBindingAddr) (filtered : List Nat) :
    ∀ (pairs : List (Nat × GlobalVariable)) (l : List (Nat × LayoutEntry)),
      reflectLoop nf filtered pairs = .ok l →
      ∀ p ∈ pairs, ∀ addr, p.2.binding = some addr →
        ∃ ty, bindingTypeOf nf filtered p.1 p.2 = some ty ∧
          (addr.group, ⟨addr.binding, SHADER_STAGE_COMPUTE, ty, none⟩) ∈ l := by
  intro pairs
  induction pairs with
  | nil =>
    intro l _ p hp
    exact absurd hp (by simp)
  | cons q rest ih =>
    intro l hok p hp addr haddr
    rcases List.mem_cons.mp hp with hp | hp
    · subst hp
      rw [show (p :: rest) = (p.1, p.2) :: rest by rfl,
        reflectLoop_cons_bind haddr] at hok
      by_cases hg : addr.group ≥ MAX_BIND_GROUPS
      · rw [if_pos hg] at hok
        exact absurd hok (by simp)
      · rw [if_neg hg] at hok
        cases hbt : bindingTypeOf nf filtered p.1 p.2 with
        | none => rw [hbt] at hok; exact absurd hok (by simp)
        | some ty =>
          rw [hbt] at hok
          cases hrest : reflectLoop nf filtered rest with
          | error e =>
            rw [hrest] at hok
            exact absurd hok (by simp [Except.map])
          | ok l' =>
            rw [hrest] at hok
            have : l = (addr.group,
                ⟨addr.binding, SHADER_STAGE_COMPUTE, ty, none⟩) :: l' := by
              simpa [Except.map] using hok.symm
            exact ⟨ty, rfl, by rw [this]; exact List.mem_cons_self _ _⟩
    · cases hqb : q.2.binding with
      | none =>
        rw [show (q :: rest) = (q.1, q.2) :: rest by rfl,
          reflectLoop_cons_nobind hqb] at hok
        exact ih l hok p hp addr haddr
      | some qaddr =>
        rw [show (q :: rest) = (q.1, q.2) :: rest by rfl,
          reflectLoop_cons_bind hqb] at hok
        by_cases hg : qaddr.group ≥ MAX_BIND_GROUPS
        · rw [if_pos hg] at hok
          exact absurd hok (by simp)
        · rw [if_neg hg] at hok
          cases hbt : bindingTypeOf nf filtered q.1 q.2 with
          | none => rw [hbt] at hok; exact absurd hok (by simp)
          | some ty =>
            rw [hbt] at hok
            cases hrest : reflectLoop nf filtered rest with
            | error e =>
              rw [hrest] at hok
              exact absurd hok (by simp [Except.map])
            | ok l' =>
              rw [hrest] at hok
              have hl : l = (qaddr.group,
                  ⟨qaddr.binding, SHADER_STAGE_COMPUTE, ty, none⟩) :: l' := by
                simpa [Except.map] using hok.symm
              obtain ⟨ty', hty', hmem⟩ := ih l' hrest p hp addr haddr
              exact ⟨ty', hty', by rw [hl]; exact List.mem_cons_of_mem _ hmem⟩

theorem mem_enum_filter_of_getElem? {l : List GlobalVariable} {i : Nat}
    {g : GlobalVariable} (h : l[i]? = some g) (hb : g.binding.isSome) :
    (i, g) ∈ l.enum.filter (fun p => p.2.binding.isSome) := by
  rw [List.mem_filter]
  constructor
  · rw [List.mem_enum_iff_getElem?]
    exact h
  · exact hb

/-- Claim C8: when reflecting a compute entry point, the filtered-sampling
set is exactly the set of image handles occurring in a sampling pair whose
sampler's binding is not in the caller's non-filtering set; a
non-comparison sampler whose binding is in the non-filtering set yields the
layout entry Sampler(NonFiltering) and otherwise Sampler(Filtering); every
Sampled Float image yields a Texture entry whose sample type is
Float{filterable: handle in filtered set}; hence an image all of whose
sampling pairs use non-filtering samplers is outside the filtered set and
gets filterable = false. -/
theorem claim_C8_reflection_nonfiltering
    (nf : List ResourceBindingAddr) (sampling_set : List SamplingKey)
    (globals : List GlobalVariable) :
    (∀ x, x ∈ filteredSet globals sampling_set nf ↔
      ∃ key ∈ sampling_set, key.image = x ∧ ∃ cmp addr,
        (globals.getD key.sampler defaultGlobal).ty = .sampler cmp ∧
        (globals.getD key.sampler defaultGlobal).binding = some addr ∧
        addr ∉ nf)
    ∧ (∀ (l : List (Nat × LayoutEntry)) (h : Nat) (g : GlobalVariable)
        (addr : ResourceBindingAddr), reflect nf sampling_set globals = .ok l →
        globals[h]? = some g → g.space = .handle → g.ty = .sampler false →
        g.binding = some addr →
        (addr.group, ⟨addr.binding, SHADER_STAGE_COMPUTE,
          .sampler (if addr ∈ nf then .nonFiltering else .filtering), none⟩) ∈ l)
    ∧ (∀ (l : List (Nat × LayoutEntry)) (h : Nat) (g : GlobalVariable)
        (addr : ResourceBindingAddr) (dim : ImageDimension) (arrayed multi : Bool)
        (vd : TextureViewDimension),
        reflect nf sampling_set globals = .ok l →
        globals[h]? = some g → g.space = .handle →
        g.ty = .image dim arrayed (.sampled .float multi) →
        g.binding = some addr → view_dim_of dim arrayed = some vd →
        (addr.group, ⟨addr.binding, SHADER_STAGE_COMPUTE,
          .texture (.float (decide (h ∈ filteredSet globals sampling_set nf)))
            vd multi, none⟩) ∈ l)
    ∧ (∀ h, (∀ key ∈ sampling_set, key.image = h →
          ∀ addr, (globals.getD key.sampler defaultGlobal).binding = some addr →
            addr ∈ nf) →
        h ∉ filteredSet globals sampling_set nf) := by
  refine ⟨filteredSet_mem globals sampling_set nf, ?_, ?_, ?_⟩
  · intro l h g addr hok hget hsp hty hb
    unfold reflect at hok
    obtain ⟨ty, hbt, hmem⟩ := reflectLoop_mem nf _ _ l hok (h, g)
      (mem_enum_filter_of_getElem? hget (by rw [hb]; rfl)) addr hb
    have hval : bindingTypeOf nf (filteredSet globals sampling_set nf) h g
        = some (.sampler (if addr ∈ nf then .nonFiltering else .filtering)) := by
      simp only [bindingTypeOf, hsp, hty, hb]
    rw [hval] at hbt
    cases hbt
    exact hmem
  · intro l h g addr dim arrayed multi vd hok hget hsp hty hb hvd
    unfold reflect at hok
    obtain ⟨ty, hbt, hmem⟩ := reflectLoop_mem nf _ _ l hok (h, g)
      (mem_enum_filter_of_getElem? hget (by rw [hb]; rfl)) addr hb
    have hval : bindingTypeOf nf (filteredSet globals sampling_set nf) h g
        = some (.texture
            (.float (decide (h ∈ filteredSet globals sampling_set nf)))
            vd multi) := by
      simp only [bindingTypeOf, hsp, hty, match_image, hvd]
    rw [hval] at hbt
    cases hbt
    exact hmem
  · intro h hyp hmem
    rw [filteredSet_mem] at hmem
    obtain ⟨key, hk, hx, cmp, addr, hty, hb, hnot⟩ := hmem
    exact hnot (hyp key hk hx addr hb)

/-- Witness for claim C8: a module with one non-filtering-listed sampler at
(0,0) and one sampled Float 2D image at (0,1) paired with it; the image is
outside the filtered set, so its layout entry gets filterable = false. -/
theorem claim_C8_witness :
    ((0 : Nat), (⟨1, SHADER_STAGE_COMPUTE,
      .texture (.float (decide ((1 : Nat) ∈ filteredSet
        [⟨some ⟨0, 0⟩, .handle, .sampler false⟩,
         ⟨some ⟨0, 1⟩, .handle, .image .d2 false (.sampled .float false)⟩]
        [⟨1, 0⟩] [⟨0, 0⟩]))) .d2 false, none⟩ : LayoutEntry))
      ∈ [((0 : Nat), (⟨0, SHADER_STAGE_COMPUTE, .sampler .nonFiltering, none⟩ : LayoutEntry)),
         ((0 : Nat), (⟨1, SHADER_STAGE_COMPUTE, .texture (.float false) .d2 false, none⟩ : LayoutEntry))] :=
  (claim_C8_reflection_nonfiltering [⟨0, 0⟩] [⟨1, 0⟩]
    [⟨some ⟨0, 0⟩, .handle, .sampler false⟩,
     ⟨some ⟨0, 1⟩, .handle, .image .d2 false (.sampled .float false)⟩]).2.2.1
    [((0 : Nat), (⟨0, SHADER_STAGE_COMPUTE, .sampler .nonFiltering, none⟩ : LayoutEntry)),
     ((0 : Nat), (⟨1, SHADER_STAGE_COMPUTE, .texture (.float false) .d2 false, none⟩ : LayoutEntry))]
    1 ⟨some ⟨0, 1⟩, .handle, .image .d2 false (.sampled .float false)⟩ ⟨0, 1⟩
    .d2 false false .d2 rfl rfl rfl rfl rfl rfl

/-! ### Claim C10: duplicate node names -/

theorem intersects_nil_right (xs : List Nat) : intersects xs [] = false := by
  unfold intersects
  induction xs with
  | nil => rfl
  | cons x rest ih => simp

set_option maxHeartbeats 2000000 in
/-- Claim C10: adding a node whose name equals an already-added node's name
does not replace the earlier node: both stay in the node map, compile orders
and records both (both keys appear in the returned order), and the name now
resolves to the key of the most recently added node.  Shown for a graph of
two nodes sharing one name, with arbitrary recorded reads and no ordering
constraints or writes. -/
theorem claim_C10_duplicate_names_keep_both (a : String) (r1 r2 : List Nat) :
    (RenderGraph.add (RenderGraph.add [] ⟨a, [], [], r1, []⟩) ⟨a, [], [], r2, []⟩)
        = [⟨a, [], [], r1, []⟩, ⟨a, [], [], r2, []⟩]
    ∧ ([⟨a, [], [], r1, []⟩, ⟨a, [], [], r2, []⟩] : RenderGraph)[0]?
        = some ⟨a, [], [], r1, []⟩
    ∧ ([⟨a, [], [], r1, []⟩, ⟨a, [], [], r2, []⟩] : RenderGraph)[1]?
        = some ⟨a, [], [], r2, []⟩
    ∧ RenderGraph.compile [⟨a, [], [], r1, []⟩, ⟨a, [], [], r2, []⟩] = .ok [0, 1]
    ∧ getKey [⟨a, [], [], r1, []⟩, ⟨a, [], [], r2, []⟩] a = some 1 := by
  refine ⟨rfl, rfl, rfl, ?_, by simp [getKey, List.enum]⟩
  have htopo : topoSort [⟨a, [], [], r1, []⟩, ⟨a, [], [], r2, []⟩] = .ok [0, 1] := rfl
  have hconf : ∀ i j, do_nodes_conflict
      [⟨a, [], [], r1, []⟩, ⟨a, [], [], r2, []⟩] [0, 1] i j = false := by
    intro i j
    unfold do_nodes_conflict accessAt
    have hw : ∀ p : Nat,
        (([⟨a, [], [], r1, []⟩, ⟨a, [], [], r2, []⟩] : RenderGraph).getD
          (([0, 1] : List Nat).getD p 0) default).writes = [] := by
      intro p
      match p with
      | 0 => rfl
      | 1 => rfl
      | n + 2 => rfl
    simp only [hw, intersects_nil_right]
    rfl
  have hanc0 : ancSet [⟨a, [], [], r1, []⟩, ⟨a, [], [], r2, []⟩] [0, 1] 0 = [0] := rfl
  have hanc1 : ancSet [⟨a, [], [], r1, []⟩, ⟨a, [], [], r2, []⟩] [0, 1] 1 = [1] := rfl
  have hamb : ambiguities [⟨a, [], [], r1, []⟩, ⟨a, [], [], r2, []⟩] [0, 1] = [] := by
    unfold ambiguities
    simp only [hconf, hanc0, hanc1]
    rfl
  unfold RenderGraph.compile
  rw [htopo]
  simp only [hamb]
  rfl

/-! ### Claim C2: cycle detection -/

/-- Counterexample for claim C2 as stated: a three-node set whose constraint
graph has a genuine dependency cycle (A after B and B after A, with an extra
node S after A inserted first), on which compile succeeds instead of
failing with CycleDetected: the traversal starts at S, the cycle does not
pass through that root, and the root-only cycle check misses it. -/
theorem claim_C2_counterexample :
    RenderGraph.compile
        [⟨"S", [], ["A"], [], []⟩, ⟨"A", [], ["B"], [], []⟩, ⟨"B", [], ["A"], [], []⟩]
      = .ok [2, 1, 0]
    ∧ depsOf [⟨"S", [], ["A"], [], []⟩, ⟨"A", [], ["B"], [], []⟩,
        ⟨"B", [], ["A"], [], []⟩] 1 = [2]
    ∧ depsOf [⟨"S", [], ["A"], [], []⟩, ⟨"A", [], ["B"], [], []⟩,
        ⟨"B", [], ["A"], [], []⟩] 2 = [1] :=
  ⟨rfl, rfl, rfl⟩

set_option maxHeartbeats 2000000 in
/-- Claim C2 (amended): a cycle is detected when it passes through the node
at which the traversal starts; in particular, for exactly two nodes each
declared after the other, compile fails with CycleDetected naming the two
nodes in one of the two orders.  (The original universal claim fails:
see the counterexample, where a cycle avoiding every traversal root goes
undetected.) -/
theorem claim_C2_two_node_cycle_detected (a b : String) (ra wa rb wb : List Nat)
    (h : a ≠ b) :
    RenderGraph.compile [⟨a, [], [b], ra, wa⟩, ⟨b, [], [a], rb, wb⟩]
        = .error (.cycleDetected a b)
    ∨ RenderGraph.compile [⟨a, [], [b], ra, wa⟩, ⟨b, [], [a], rb, wb⟩]
        = .error (.cycleDetected b a) := by
  left
  have h' : b ≠ a := Ne.symm h
  have hka : getKey [⟨a, [], [b], ra, wa⟩, ⟨b, [], [a], rb, wb⟩] a = some 0 := by
    simp [getKey, List.enum, h']
  have hkb : getKey [⟨a, [], [b], ra, wa⟩, ⟨b, [], [a], rb, wb⟩] b = some 1 := by
    simp [getKey, List.enum, h]
  have hdeps : collateDeps [⟨a, [], [b], ra, wa⟩, ⟨b, [], [a], rb, wb⟩]
      = [[1], [0]] := by
    simp [collateDeps, List.enum, hka, hkb]
  have htopo : topoSort [⟨a, [], [b], ra, wa⟩, ⟨b, [], [a], rb, wb⟩]
      = .error (0, 1) := by
    unfold topoSort
    rw [hdeps]
    rfl
  have hn0 : getName [⟨a, [], [b], ra, wa⟩, ⟨b, [], [a], rb, wb⟩] 0 = some a := by
    simp [getName, hka]
  have hn1 : getName [⟨a, [], [b], ra, wa⟩, ⟨b, [], [a], rb, wb⟩] 1 = some b := by
    simp [getName, hkb]
  unfold RenderGraph.compile
  rw [htopo]
  simp [hn0, hn1]

/-- Witness for claim C2's amended theorem at the node names of the spec's
boundary scenario. -/
theorem claim_C2_witness :
    RenderGraph.compile [⟨"A", [], ["B"], [], []⟩, ⟨"B", [], ["A"], [], []⟩]
        = .error (.cycleDetected "A" "B")
    ∨ RenderGraph.compile [⟨"A", [], ["B"], [], []⟩, ⟨"B", [], ["A"], [], []⟩]
        = .error (.cycleDetected "B" "A") :=
  claim_C2_two_node_cycle_detected "A" "B" [] [] [] [] (by decide)

/-! ### The stack-driven DFS computes reflexive-transitive reachability -/

theorem listSum_range_eq_finsetSum (n : Nat) (f : Nat → Nat) :
    ((List.range n).map f).sum = ∑ i in Finset.range n, f i := by
  induction n with
  | zero => rfl
  | succ m ih =>
    rw [List.range_succ, List.map_append, List.sum_append, Finset.sum_range_succ, ih]
    simp

theorem dfsClosure_invariant (nbr : Nat → List Nat) (n : Nat) (s : Nat)
    (hn : ∀ i, i < n → ∀ j ∈ nbr i, j < n) :
    ∀ (fuel : Nat) (stack b : List Nat),
    (∀ x ∈ b, x < n) →
    (∀ x ∈ stack, x < n) →
    (∀ x ∈ b, Relation.ReflTransGen (stepR nbr) s x) →
    (∀ x ∈ stack, Relation.ReflTransGen (stepR nbr) s x) →
    (∀ x ∈ b, ∀ y ∈ nbr x, y ∈ b ∨ y ∈ stack) →
    dfsMeasure nbr n stack b ≤ fuel →
    (∀ x ∈ b, x ∈ dfsClosure nbr fuel stack b)
    ∧ (∀ x ∈ stack, x ∈ dfsClosure nbr fuel stack b)
    ∧ (∀ x ∈ dfsClosure nbr fuel stack b, Relation.ReflTransGen (stepR nbr) s x)
    ∧ (∀ x ∈ dfsClosure nbr fuel stack b, ∀ y ∈ nbr x,
        y ∈ dfsClosure nbr fuel stack b)
    ∧ (∀ x ∈ dfsClosure nbr fuel stack b, x < n) := by
  intro fuel
  induction fuel with
  | zero =>
    intro stack b hb hst hrb hrst hcl hm
    have hstack_nil : stack = [] := by
      unfold dfsMeasure at hm
      have hlen : stack.length = 0 := by omega
      exact List.eq_nil_of_length_eq_zero hlen
    subst hstack_nil
    refine ⟨?_, ?_, ?_, ?_, ?_⟩ <;> simp only [dfsClosure]
    · exact fun x hx => hx
    · intro x hx
      exact absurd hx (by simp)
    · exact hrb
    · intro x hx y hy
      rcases hcl x hx y hy with h | h
      · exact h
      · exact absurd h (by simp)
    · exact hb
  | succ fuel ih =>
    intro stack b hb hst hrb hrst hcl hm
    cases stack with
    | nil =>
      refine ⟨?_, ?_, ?_, ?_, ?_⟩ <;> simp only [dfsClosure]
      · exact fun x hx => hx
      · intro x hx
        exact absurd hx (by simp)
      · exact hrb
      · intro x hx y hy
        rcases hcl x hx y hy with h | h
        · exact h
        · exact absurd h (by simp)
      · exact hb
    | cons x stack =>
      have hxn : x < n := hst x (List.mem_cons_self _ _)
      by_cases hx : x ∈ b
      · have heq : dfsClosure nbr (fuel + 1) (x :: stack) b
            = dfsClosure nbr fuel stack b := by
          simp only [dfsClosure, if_pos hx]
        have hm' : dfsMeasure nbr n stack b ≤ fuel := by
          unfold dfsMeasure at hm ⊢
          simp only [List.length_cons] at hm
          omega
        have hcl' : ∀ z ∈ b, ∀ y ∈ nbr z, y ∈ b ∨ y ∈ stack := by
          intro z hz y hy
          rcases hcl z hz y hy with h | h
          · exact Or.inl h
          · rcases List.mem_cons.mp h with h | h
            · exact Or.inl (h ▸ hx)
            · exact Or.inr h
        obtain ⟨ih1, ih2, ih3, ih4, ih5⟩ := ih stack b hb
          (fun z hz => hst z (List.mem_cons_of_mem _ hz)) hrb
          (fun z hz => hrst z (List.mem_cons_of_mem _ hz)) hcl' hm'
        rw [heq]
        refine ⟨ih1, ?_, ih3, ih4, ih5⟩
        intro z hz
        rcases List.mem_cons.mp hz with h | h
        · exact h ▸ ih1 x hx
        · exact ih2 z h
      · have heq : dfsClosure nbr (fuel + 1) (x :: stack) b
            = dfsClosure nbr fuel ((nbr x).reverse ++ stack) (x :: b) := by
          simp only [dfsClosure, if_neg hx]
        have hb' : ∀ z ∈ x :: b, z < n := by
          intro z hz
          rcases List.mem_cons.mp hz with h | h
          · exact h ▸ hxn
          · exact hb z h
        have hst' : ∀ z ∈ (nbr x).reverse ++ stack, z < n := by
          intro z hz
          rcases List.mem_append.mp hz with h | h
          · exact hn x hxn z (List.mem_reverse.mp h)
          · exact hst z (List.mem_cons_of_mem _ h)
        have hrx : Relation.ReflTransGen (stepR nbr) s x :=
          hrst x (List.mem_cons_self _ _)
        have hrb' : ∀ z ∈ x :: b, Relation.ReflTransGen (stepR nbr) s z := by
          intro z hz
          rcases List.mem_cons.mp hz with h | h
          · exact h ▸ hrx
          · exact hrb z h
        have hrst' : ∀ z ∈ (nbr x).reverse ++ stack,
            Relation.ReflTransGen (stepR nbr) s z := by
          intro z hz
          rcases List.mem_append.mp hz with h | h
          · exact hrx.tail (List.mem_reverse.mp h)
          · exact hrst z (List.mem_cons_of_mem _ h)
        have hcl' : ∀ z ∈ x :: b, ∀ y ∈ nbr z,
            y ∈ x :: b ∨ y ∈ (nbr x).reverse ++ stack := by
          intro z hz y hy
          rcases List.mem_cons.mp hz with h | h
          · subst h
            exact Or.inr (List.mem_append.mpr (Or.inl (List.mem_reverse.mpr hy)))
          · rcases hcl z h y hy with h' | h'
            · exact Or.inl (List.mem_cons_of_mem _ h')
            · rcases List.mem_cons.mp h' with h' | h'
              · exact Or.inl (h' ▸ List.mem_cons_self _ _)
              · exact Or.inr (List.mem_append.mpr (Or.inr h'))
        have hxmem : x ∈ (Finset.range n).filter (fun i => i ∉ b) := by
          simp only [Finset.mem_filter, Finset.mem_range]
          exact ⟨hxn, hx⟩
        have hsplit : (1 + (nbr x).length) +
            ∑ i in ((Finset.range n).filter (fun i => i ∉ b)).erase x,
              (1 + (nbr i).length)
            = ∑ i in (Finset.range n).filter (fun i => i ∉ b),
                (1 + (nbr i).length) :=
          Finset.add_sum_erase _ (fun i => 1 + (nbr i).length) hxmem
        have hfilter : (Finset.range n).filter (fun i => i ∉ (x :: b))
            = ((Finset.range n).filter (fun i => i ∉ b)).erase x := by
          ext i
          simp only [Finset.mem_filter, Finset.mem_erase, Finset.mem_range,
            List.mem_cons]
          constructor
          · intro ⟨h1, h2⟩
            push_neg at h2
            exact ⟨h2.1, h1, h2.2⟩
          · intro ⟨h1, h2, h3⟩
            refine ⟨h2, ?_⟩
            push_neg
            exact ⟨h1, h3⟩
        have hm' : dfsMeasure nbr n ((nbr x).reverse ++ stack) (x :: b) ≤ fuel := by
          unfold dfsMeasure at hm ⊢
          rw [hfilter]
          simp only [List.length_append, List.length_reverse, List.length_cons] at hm ⊢
          omega
        obtain ⟨ih1, ih2, ih3, ih4, ih5⟩ :=
          ih ((nbr x).reverse ++ stack) (x :: b) hb' hst' hrb' hrst' hcl' hm'
        rw [heq]
        refine ⟨?_, ?_, ih3, ih4, ih5⟩
        · intro z hz
          exact ih1 z (List.mem_cons_of_mem _ hz)
        · intro z hz
          rcases List.mem_cons.mp hz with h | h
          · exact h ▸ ih1 x (List.mem_cons_self _ _)
          · exact ih2 z (List.mem_append.mpr (Or.inr h))

theorem dfsClosure_spec (nbr : Nat → List Nat) (n : Nat) (s : Nat)
    (hn : ∀ i, i < n → ∀ j ∈ nbr i, j < n) (hs : s < n) :
    ∀ x, x ∈ dfsClosure nbr (dfsFuel nbr n) [s] [] ↔
      Relation.ReflTransGen (stepR nbr) s x := by
  have hfuel : dfsMeasure nbr n [s] [] ≤ dfsFuel nbr n := by
    unfold dfsMeasure dfsFuel
    rw [listSum_range_eq_finsetSum]
    have hsub : ∑ i in (Finset.range n).filter
          (fun i => i ∉ ([] : List Nat)), (1 + (nbr i).length)
        ≤ ∑ i in Finset.range n, (1 + (nbr i).length) :=
      Finset.sum_le_sum_of_subset (Finset.filter_subset _ _)
    simp only [List.length_singleton]
    omega
  obtain ⟨h1, h2, h3, h4, h5⟩ := dfsClosure_invariant nbr n s hn
    (dfsFuel nbr n) [s] [] (by intro x hx; exact absurd hx (by simp))
    (by intro x hx; rw [List.mem_singleton] at hx; exact hx ▸ hs)
    (by intro x hx; exact absurd hx (by simp))
    (by intro x hx; rw [List.mem_singleton] at hx; exact hx ▸ Relation.ReflTransGen.refl)
    (by intro x hx; exact absurd hx (by simp))
    hfuel
  intro x
  constructor
  · exact h3 x
  · intro hr
    induction hr with
    | refl => exact h2 s (List.mem_singleton.mpr rfl)
    | tail hab hbc ihab => exact h4 _ ihab _ hbc

/-! ### Invariants of the topological sort -/

theorem scanDeps_spec : ∀ (ds visited : List Nat) (root next : Nat)
    (news visited' : List Nat),
    scanDeps ds visited root next = .ok (news, visited') →
    (∀ x, x ∈ visited' ↔ x ∈ visited ∨ x ∈ news)
    ∧ (∀ x ∈ news, x ∈ ds ∧ x ∉ visited)
    ∧ news.Nodup
    ∧ (∀ d ∈ ds, d ∈ visited ∨ d ∈ news) := by
  intro ds
  induction ds with
  | nil =>
    intro visited root next news visited' h
    unfold scanDeps at h
    injection h with h
    injection h with h1 h2
    subst h1
    subst h2
    refine ⟨fun x => ⟨Or.inl, ?_⟩, ?_, List.nodup_nil, ?_⟩
    · intro hx
      rcases hx with hx | hx
      · exact hx
      · exact absurd hx (by simp)
    · intro x hx
      exact absurd hx (by simp)
    · intro d hd
      exact absurd hd (by simp)
  | cons d rest ih =>
    intro visited root next news visited' h
    unfold scanDeps at h
    by_cases hd : d ∈ visited
    · rw [if_pos hd] at h
      by_cases hroot : d = root
      · rw [if_pos hroot] at h
        exact absurd h (by simp)
      · rw [if_neg hroot] at h
        obtain ⟨h1, h2, h3, h4⟩ := ih visited root next news visited' h
        refine ⟨h1, ?_, h3, ?_⟩
        · intro x hx
          exact ⟨List.mem_cons_of_mem _ (h2 x hx).1, (h2 x hx).2⟩
        · intro e he
          rcases List.mem_cons.mp he with he | he
          · exact Or.inl (he ▸ hd)
          · exact h4 e he
    · rw [if_neg hd] at h
      cases hrec : scanDeps rest (d :: visited) root next with
      | error e =>
        rw [hrec] at h
        exact absurd h (by simp)
      | ok p =>
        rw [hrec] at h
        have hnews : news = d :: p.1 ∧ visited' = p.2 := by
          have h' : (Except.ok (d :: p.1, p.2) :
              Except (Nat × Nat) (List Nat × List Nat)) = .ok (news, visited') := h
          injection h' with h'
          injection h' with ha hb
          exact ⟨ha.symm, hb.symm⟩
        obtain ⟨hne, hve⟩ := hnews
        subst hne
        subst hve
        obtain ⟨h1, h2, h3, h4⟩ := ih (d :: visited) root next p.1 p.2 hrec
        refine ⟨?_, ?_, ?_, ?_⟩
        · intro x
          rw [h1 x]
          simp only [List.mem_cons]
          tauto
        · intro x hx
          rcases List.mem_cons.mp hx with hx | hx
          · exact ⟨hx ▸ List.mem_cons_self _ _, hx ▸ hd⟩
          · have := h2 x hx
            exact ⟨List.mem_cons_of_mem _ this.1,
              fun hc => this.2 (List.mem_cons_of_mem _ hc)⟩
        · refine List.nodup_cons.mpr ⟨?_, h3⟩
          intro hc
          exact (h2 d hc).2 (List.mem_cons_self _ _)
        · intro e he
          rcases List.mem_cons.mp he with he | he
          · exact Or.inr (he ▸ List.mem_cons_self _ _)
          · rcases h4 e he with h' | h'
            · rcases List.mem_cons.mp h' with h' | h'
              · exact Or.inr (h' ▸ List.mem_cons_self _ _)
              · exact Or.inl h'
            · exact Or.inr (List.mem_cons_of_mem _ h')

theorem bfsLoop_invariant (deps : List (List Nat)) (root : Nat) (n : Nat)
    (E : List Nat) (hdeps : ∀ i, ∀ j ∈ deps.getD i [], j < n) :
    ∀ (fuel : Nat) (pending visited order : List Nat)
      (res : List Nat × List Nat),
    bfsLoop deps root fuel pending visited order = .ok res →
    (∀ x, x ∈ visited ↔ x ∈ E ∨ x ∈ order) →
    order.Nodup →
    (∀ x ∈ order, x ∉ E) →
    (∀ x ∈ pending, x ∈ order) →
    (∀ x ∈ order, x < n) →
    (∀ x, x ∈ res.2 ↔ x ∈ E ∨ x ∈ res.1)
    ∧ res.1.Nodup
    ∧ (∀ x ∈ res.1, x ∉ E)
    ∧ (∀ x ∈ res.1, x < n)
    ∧ (∃ ext, res.1 = order ++ ext) := by
  intro fuel
  induction fuel with
  | zero =>
    intro pending visited order res h hv hnd hdisj hpend hlt
    cases pending with
    | nil =>
      unfold bfsLoop at h
      injection h with h
      subst h
      exact ⟨hv, hnd, hdisj, hlt, [], by simp⟩
    | cons x pending =>
      unfold bfsLoop at h
      injection h with h
      subst h
      exact ⟨hv, hnd, hdisj, hlt, [], by simp⟩
  | succ fuel ih =>
    intro pending visited order res h hv hnd hdisj hpend hlt
    cases pending with
    | nil =>
      unfold bfsLoop at h
      injection h with h
      subst h
      exact ⟨hv, hnd, hdisj, hlt, [], by simp⟩
    | cons x pending =>
      unfold bfsLoop at h
      cases hscan : scanDeps (deps.getD x []) visited root x with
      | error e =>
        rw [hscan] at h
        exact absurd h (by simp)
      | ok p =>
        rw [hscan] at h
        obtain ⟨s1, s2, s3, s4⟩ :=
          scanDeps_spec (deps.getD x []) visited root x p.1 p.2 hscan
        have hfresh_lt : ∀ z ∈ p.1, z < n := by
          intro z hz
          exact hdeps x z (s2 z hz).1
        have hfresh_not_order : ∀ z ∈ p.1, z ∉ order := by
          intro z hz hc
          exact (s2 z hz).2 ((hv z).mpr (Or.inr hc))
        have hfresh_not_E : ∀ z ∈ p.1, z ∉ E := by
          intro z hz hc
          exact (s2 z hz).2 ((hv z).mpr (Or.inl hc))
        have hres := ih (pending ++ p.1) p.2 (order ++ p.1) res h ?_ ?_ ?_ ?_ ?_
        case succ.cons.ok =>
          obtain ⟨c1, c2, c3, c4, c5⟩ := hres
          refine ⟨c1, c2, c3, c4, ?_⟩
          obtain ⟨ext, hext⟩ := c5
          exact ⟨p.1 ++ ext, by rw [hext, List.append_assoc]⟩
        · intro z
          rw [s1 z, hv z]
          simp only [List.mem_append]
          tauto
        · rw [List.nodup_append]
          exact ⟨hnd, s3, fun z hz hc => hfresh_not_order z hc hz⟩
        · intro z hz
          rcases List.mem_append.mp hz with hz | hz
          · exact hdisj z hz
          · exact hfresh_not_E z hz
        · intro z hz
          rcases List.mem_append.mp hz with hz | hz
          · exact List.mem_append.mpr (Or.inl (hpend z (List.mem_cons_of_mem _ hz)))
          · exact List.mem_append.mpr (Or.inr hz)
        · intro z hz
          rcases List.mem_append.mp hz with hz | hz
          · exact hlt z hz
          · exact hfresh_lt z hz

theorem foldl_preserve {α β : Type} {P : β → Prop} (f : β → α → β)
    (l : List α) (b : β) (hb : P b)
    (hf : ∀ acc a, a ∈ l → P acc → P (f acc a)) : P (l.foldl f b) := by
  induction l generalizing b with
  | nil => exact hb
  | cons a rest ih =>
    exact ih (f b a) (hf b a (List.mem_cons_self _ _) hb)
      (fun acc x hx hacc => hf acc x (List.mem_cons_of_mem _ hx) hacc)

theorem mem_enum_fst_lt {α : Type} {l : List α} {p : Nat × α}
    (hp : p ∈ l.enum) : p.1 < l.length := by
  have hp' : (p.1, p.2) ∈ l.enum := by rwa [Prod.mk.eta]
  exact getElem?_some_lt (List.mem_enum_iff_getElem?.mp hp')

theorem getKey_lt {nodes : RenderGraph} {name : String} {k : Nat}
    (h : getKey nodes name = some k) : k < nodes.length := by
  unfold getKey at h
  have := foldl_preserve
    (P := fun acc : Option Nat => ∀ j, acc = some j → j < nodes.length)
    (fun acc p => if p.2.name = name then some p.1 else acc) nodes.enum none
    (by intro j hj; exact absurd hj (by simp)) ?_ k h
  · exact this
  · intro acc p hp hacc j hj
    simp only at hj
    by_cases hname : p.2.name = name
    · rw [if_pos hname] at hj
      injection hj with hj
      exact hj ▸ mem_enum_fst_lt hp
    · rw [if_neg hname] at hj
      exact hacc j hj

theorem mem_set_cases {α : Type} :
    ∀ (l : List α) (t : Nat) (v m : α), m ∈ l.set t v → m ∈ l ∨ m = v := by
  intro l
  induction l with
  | nil =>
    intro t v m h
    simp [List.set] at h
  | cons a rest ih =>
    intro t v m h
    cases t with
    | zero =>
      rw [List.set_cons_zero] at h
      rcases List.mem_cons.mp h with h | h
      · exact Or.inr h
      · exact Or.inl (List.mem_cons_of_mem _ h)
    | succ t' =>
      rw [List.set_cons_succ] at h
      rcases List.mem_cons.mp h with h | h
      · exact Or.inl (h ▸ List.mem_cons_self _ _)
      · rcases ih t' v m h with h | h
        · exact Or.inl (List.mem_cons_of_mem _ h)
        · exact Or.inr h

theorem getD_mem_or {α : Type} (l : List α) (t : Nat) (d : α) :
    l.getD t d ∈ l ∨ l.getD t d = d := by
  induction l generalizing t with
  | nil => exact Or.inr rfl
  | cons a rest ih =>
    cases t with
    | zero => exact Or.inl (List.mem_cons_self _ _)
    | succ t' =>
      rcases ih t' with h | h
      · exact Or.inl (List.mem_cons_of_mem _ h)
      · exact Or.inr h

theorem collateDeps_bounds (nodes : RenderGraph) :
    (collateDeps nodes).length = nodes.length
    ∧ ∀ l ∈ collateDeps nodes, ∀ j ∈ l, j < nodes.length := by
  unfold collateDeps
  refine foldl_preserve
    (P := fun d : List (List Nat) => d.length = nodes.length
      ∧ ∀ l ∈ d, ∀ j ∈ l, j < nodes.length) _ _ _ ⟨by simp, ?_⟩ ?_
  · intro l hl j hj
    rw [List.eq_of_mem_replicate hl] at hj
    exact absurd hj (by simp)
  · intro acc p hp hacc
    have hp1 : p.1 < nodes.length := mem_enum_fst_lt hp
    simp only
    have hinner := foldl_preserve
      (P := fun d : List (List Nat) => d.length = nodes.length
        ∧ ∀ l ∈ d, ∀ j ∈ l, j < nodes.length)
      (beforeStep nodes p.1) p.2.before acc hacc ?_
    · obtain ⟨hlen, helem⟩ := hinner
      constructor
      · rw [List.length_set]
        exact hlen
      · intro l hl j hj
        rcases mem_set_cases _ _ _ _ hl with hl | hl
        · exact helem l hl j hj
        · subst hl
          rcases List.mem_append.mp hj with hj | hj
          · rcases getD_mem_or (p.2.before.foldl _ acc) p.1 [] with hg | hg
            · exact helem _ hg j hj
            · rw [hg] at hj
              exact absurd hj (by simp)
          · obtain ⟨nm, -, hkey⟩ := List.mem_filterMap.mp hj
            exact getKey_lt hkey
    · intro acc2 nm hnm hacc2
      cases hk : getKey nodes nm with
      | none =>
        rw [show beforeStep nodes p.1 acc2 nm = acc2 by
          simp only [beforeStep, hk]]
        exact hacc2
      | some t =>
        rw [show beforeStep nodes p.1 acc2 nm
            = acc2.set t (acc2.getD t [] ++ [p.1]) by
          simp only [beforeStep, hk]]
        obtain ⟨hlen2, helem2⟩ := hacc2
        constructor
        · rw [List.length_set]
          exact hlen2
        · intro l hl j hj
          rcases mem_set_cases _ _ _ _ hl with hl | hl
          · exact helem2 l hl j hj
          · subst hl
            rcases List.mem_append.mp hj with hj | hj
            · rcases getD_mem_or acc2 t [] with hg | hg
              · exact helem2 _ hg j hj
              · rw [hg] at hj
                exact absurd hj (by simp)
            · rw [List.mem_singleton] at hj
              exact hj ▸ hp1

theorem depsOf_lt (nodes : RenderGraph) :
    ∀ i, ∀ j ∈ depsOf nodes i, j < nodes.length := by
  intro i j hj
  unfold depsOf at hj
  rcases getD_mem_or (collateDeps nodes) i [] with hg | hg
  · exact (collateDeps_bounds nodes).2 _ hg j hj
  · rw [hg] at hj
    exact absurd hj (by simp)

theorem topoOuter_perm (deps : List (List Nat)) (fuel : Nat) (n : Nat)
    (hdeps : ∀ i, ∀ j ∈ deps.getD i [], j < n) :
    ∀ (roots visited acc res : List Nat),
    topoOuter deps fuel roots visited acc = .ok res →
    (∀ x, x ∈ visited ↔ x ∈ acc) →
    acc.Nodup →
    (∀ x ∈ acc, x < n) →
    (∀ r ∈ roots, r < n) →
    res.Nodup ∧ (∀ x ∈ res, x < n) ∧ (∀ x ∈ acc, x ∈ res)
      ∧ (∀ r ∈ roots, r ∈ res) := by
  intro roots
  induction roots with
  | nil =>
    intro visited acc res h hv hnd hlt hr
    unfold topoOuter at h
    injection h with h
    subst h
    exact ⟨hnd, hlt, fun x hx => hx, fun r hr' => absurd hr' (by simp)⟩
  | cons r rest ih =>
    intro visited acc res h hv hnd hlt hroots
    unfold topoOuter at h
    by_cases hr : r ∈ visited
    · rw [if_pos hr] at h
      obtain ⟨c1, c2, c3, c4⟩ := ih visited acc res h hv hnd hlt
        (fun z hz => hroots z (List.mem_cons_of_mem _ hz))
      refine ⟨c1, c2, c3, ?_⟩
      intro z hz
      rcases List.mem_cons.mp hz with hz | hz
      · exact hz ▸ c3 r ((hv r).mp hr)
      · exact c4 z hz
    · rw [if_neg hr] at h
      cases hb : bfsLoop deps r fuel [r] (r :: visited) [r] with
      | error e =>
        rw [hb] at h
        exact absurd h (by simp)
      | ok p =>
        rw [hb] at h
        obtain ⟨b1, b2, b3, b4, b5⟩ := bfsLoop_invariant deps r n visited hdeps
          fuel [r] (r :: visited) [r] p hb
          (by intro z; simp only [List.mem_cons, List.mem_singleton]; tauto)
          (List.nodup_singleton r)
          (by intro z hz; rw [List.mem_singleton] at hz; exact hz ▸ hr)
          (fun z hz => hz)
          (by intro z hz; rw [List.mem_singleton] at hz
              exact hz ▸ hroots r (List.mem_cons_self _ _))
        have hbatch_not_acc : ∀ z ∈ p.1, z ∉ acc := by
          intro z hz hc
          exact b3 z hz ((hv z).mpr hc)
        have hv' : ∀ x, x ∈ p.2 ↔ x ∈ acc ++ p.1.reverse := by
          intro z
          rw [b1 z, hv z]
          simp only [List.mem_append, List.mem_reverse]
        have hnd' : (acc ++ p.1.reverse).Nodup := by
          rw [List.nodup_append]
          refine ⟨hnd, List.nodup_reverse.mpr b2, ?_⟩
          intro z hz hc
          exact hbatch_not_acc z (List.mem_reverse.mp hc) hz
        have hlt' : ∀ x ∈ acc ++ p.1.reverse, x < n := by
          intro z hz
          rcases List.mem_append.mp hz with hz | hz
          · exact hlt z hz
          · exact b4 z (List.mem_reverse.mp hz)
        obtain ⟨c1, c2, c3, c4⟩ := ih p.2 (acc ++ p.1.reverse) res h hv' hnd' hlt'
          (fun z hz => hroots z (List.mem_cons_of_mem _ hz))
        refine ⟨c1, c2, ?_, ?_⟩
        · intro z hz
          exact c3 z (List.mem_append.mpr (Or.inl hz))
        · intro z hz
          rcases List.mem_cons.mp hz with hz | hz
          · subst hz
            have hrp : z ∈ p.1 := by
              obtain ⟨ext, hext⟩ := b5
              rw [hext]
              exact List.mem_append.mpr (Or.inl (List.mem_singleton.mpr rfl))
            exact c3 z (List.mem_append.mpr (Or.inr (List.mem_reverse.mpr hrp)))
          · exact c4 z hz

theorem topoSort_perm (nodes : RenderGraph) (order : List Nat)
    (h : topoSort nodes = .ok order) :
    order.Nodup ∧ (∀ x, x ∈ order ↔ x < nodes.length) := by
  unfold topoSort at h
  obtain ⟨c1, c2, c3, c4⟩ := topoOuter_perm (collateDeps nodes)
    (nodes.length + 1) nodes.length
    (fun i j hj => depsOf_lt nodes i j hj)
    (List.range nodes.length) [] [] order h
    (by intro x; simp) List.nodup_nil (by intro x hx; exact absurd hx (by simp))
    (by intro r hr; exact List.mem_range.mp hr)
  refine ⟨c1, fun x => ⟨c2 x, fun hx => c4 x (List.mem_range.mpr hx)⟩⟩

/-! ### Claim C1: the order produced for single-dependency graphs -/

theorem indexOf_append_left' {l1 l2 : List Nat} {a : Nat} (h : a ∈ l1) :
    (l1 ++ l2).indexOf a = l1.indexOf a := by
  induction l1 with
  | nil => exact absurd h (by simp)
  | cons b rest ih =>
    rw [List.cons_append]
    by_cases hb : b = a
    · simp [List.indexOf_cons, hb]
    · rcases List.mem_cons.mp h with h' | h'
      · exact absurd h'.symm hb
      · simp only [List.indexOf_cons]
        have hbeq : (b == a) = false := by
          simp [hb]
        rw [hbeq]
        simp only [Bool.cond_false]
        rw [ih h']

theorem indexOf_append_right' {l1 l2 : List Nat} {a : Nat} (h : a ∉ l1) :
    (l1 ++ l2).indexOf a = l1.length + l2.indexOf a := by
  induction l1 with
  | nil => simp
  | cons b rest ih =>
    rw [List.cons_append]
    have hb : b ≠ a := fun hc => h (hc ▸ List.mem_cons_self _ _)
    have hbeq : (b == a) = false := by simp [hb]
    simp only [List.indexOf_cons, hbeq, Bool.cond_false, List.length_cons]
    rw [ih (fun hc => h (List.mem_cons_of_mem _ hc))]
    omega

theorem respectsDeps_snoc {nodes : RenderGraph} {l : List Nat} {z : Nat}
    (hP : RespectsDeps nodes l) (hz : z ∉ l)
    (hd : ∀ d ∈ depsOf nodes z, d ∈ l) :
    RespectsDeps nodes (l ++ [z]) := by
  intro x hx d hdx
  rcases List.mem_append.mp hx with hx | hx
  · obtain ⟨hdl, hlt⟩ := hP x hx d hdx
    rw [indexOf_append_left' hdl, indexOf_append_left' hx]
    exact ⟨List.mem_append.mpr (Or.inl hdl), hlt⟩
  · rw [List.mem_singleton] at hx
    subst hx
    have hdl := hd d hdx
    rw [indexOf_append_left' hdl, indexOf_append_right' hz]
    refine ⟨List.mem_append.mpr (Or.inl hdl), ?_⟩
    have := List.indexOf_lt_length.mpr hdl
    simp only [List.indexOf_cons, beq_self_eq_true, Bool.cond_true]
    omega

theorem chain_reaches (nodes : RenderGraph) :
    ∀ (ord : List Nat) (y : Nat),
    List.Chain' (fun a b => b ∈ depsOf nodes a) (ord ++ [y]) →
    ∀ x ∈ ord ++ [y], Relation.ReflTransGen (depStep nodes) x y := by
  intro ord
  induction ord with
  | nil =>
    intro y hch x hx
    rw [List.nil_append, List.mem_singleton] at hx
    exact hx ▸ Relation.ReflTransGen.refl
  | cons a rest ih =>
    intro y hch x hx
    rw [List.cons_append] at hch hx
    rcases List.mem_cons.mp hx with hx | hx
    · subst hx
      cases rest with
      | nil =>
        simp only [List.nil_append] at hch
        have hstep : y ∈ depsOf nodes x := (List.chain'_cons.mp hch).1
        exact Relation.ReflTransGen.single hstep
      | cons b rest' =>
        rw [List.cons_append] at hch
        have hsplit := List.chain'_cons.mp hch
        have hr := ih y (by rw [List.cons_append]; exact hsplit.2) b (by simp)
        exact Relation.ReflTransGen.head hsplit.1 hr
    · exact ih y (List.Chain'.tail hch) x hx

theorem depsOf_len_le_one {nodes : RenderGraph} (hdeg : DepsAtMostOne nodes) :
    ∀ i, (depsOf nodes i).length ≤ 1 := by
  intro i
  unfold depsOf
  rcases getD_mem_or (collateDeps nodes) i [] with hg | hg
  · exact hdeg _ hg
  · rw [hg]
    simp

theorem respectsDeps_extend (nodes : RenderGraph)
    (hdeg : ∀ i, (depsOf nodes i).length ≤ 1) :
    ∀ (batch acc : List Nat),
    RespectsDeps nodes acc →
    List.Chain' (fun a b => b ∈ depsOf nodes a) batch →
    (∀ x ∈ batch, x ∉ acc) →
    batch.Nodup →
    (∀ y ord0, batch = ord0 ++ [y] → ∀ d ∈ depsOf nodes y, d ∈ acc) →
    RespectsDeps nodes (acc ++ batch.reverse) := by
  intro batch
  induction batch with
  | nil =>
    intro acc hP _ _ _ _
    simpa using hP
  | cons b rest ih =>
    intro acc hP hch hfresh hnd hlast
    rw [List.reverse_cons, ← List.append_assoc]
    cases rest with
    | nil =>
      simp only [List.reverse_nil, List.nil_append, List.append_nil]
      apply respectsDeps_snoc hP (hfresh b (List.mem_cons_self _ _))
      intro d hd
      exact hlast b [] rfl d hd
    | cons c rest' =>
      have hP' : RespectsDeps nodes (acc ++ (c :: rest').reverse) := by
        apply ih acc hP (List.Chain'.tail hch)
          (fun x hx => hfresh x (List.mem_cons_of_mem _ hx))
          (List.Nodup.of_cons hnd)
        intro y ord0 heq d hd
        exact hlast y (b :: ord0) (by rw [heq, List.cons_append]) d hd
      apply respectsDeps_snoc hP'
      · intro hc
        rcases List.mem_append.mp hc with hc | hc
        · exact hfresh b (List.mem_cons_self _ _) hc
        · exact (List.nodup_cons.mp hnd).1 (List.mem_reverse.mp hc)
      · intro d hd
        have hcdep : c ∈ depsOf nodes b := (List.chain'_cons.mp hch).1
        have hdc : d = c := by
          have hlen := hdeg b
          cases hdb : depsOf nodes b with
          | nil =>
            rw [hdb] at hd
            exact absurd hd (by simp)
          | cons e tail =>
            rw [hdb] at hd hcdep hlen
            have htail : tail = [] := by
              have : tail.length = 0 := by
                simp only [List.length_cons] at hlen
                omega
              exact List.eq_nil_of_length_eq_zero this
            subst htail
            rw [List.mem_singleton] at hd hcdep
            rw [hd, hcdep]
        subst hdc
        exact List.mem_append.mpr (Or.inr
          (List.mem_reverse.mpr (List.mem_cons_self _ _)))

theorem getD_set_self {α : Type} :
    ∀ (l : List α) (i : Nat) (v d : α), i < l.length → (l.set i v).getD i d = v := by
  intro l
  induction l with
  | nil =>
    intro i v d h
    exact absurd h (by simp)
  | cons a rest ih =>
    intro i v d h
    cases i with
    | zero => rfl
    | succ i' =>
      rw [List.set_cons_succ]
      exact ih i' v d (by simpa using h)

theorem getD_set_ne {α : Type} :
    ∀ (l : List α) (i j : Nat) (v d : α), i ≠ j → (l.set j v).getD i d = l.getD i d := by
  intro l
  induction l with
  | nil =>
    intro i j v d h
    rfl
  | cons a rest ih =>
    intro i j v d h
    cases j with
    | zero =>
      rw [List.set_cons_zero]
      cases i with
      | zero => exact absurd rfl h
      | succ i' => rfl
    | succ j' =>
      rw [List.set_cons_succ]
      cases i with
      | zero => rfl
      | succ i' => exact ih i' j' v d (by omega)

theorem set_oob {α : Type} :
    ∀ (l : List α) (i : Nat) (v : α), l.length ≤ i → l.set i v = l := by
  intro l
  induction l with
  | nil =>
    intro i v h
    rfl
  | cons a rest ih =>
    intro i v h
    cases i with
    | zero => exact absurd h (by simp)
    | succ i' =>
      rw [List.set_cons_succ, ih i' v (by simpa using h)]

theorem depsExt_refl (d : List (List Nat)) : DepsExt d d :=
  fun i => ⟨[], by simp⟩

theorem depsExt_trans {a b c : List (List Nat)} (h1 : DepsExt a b)
    (h2 : DepsExt b c) : DepsExt a c := by
  intro i
  obtain ⟨s1, hs1⟩ := h1 i
  obtain ⟨s2, hs2⟩ := h2 i
  exact ⟨s1 ++ s2, by rw [hs2, hs1, List.append_assoc]⟩

theorem depsExt_mem {d d' : List (List Nat)} (h : DepsExt d d') {i x : Nat}
    (hx : x ∈ d.getD i []) : x ∈ d'.getD i [] := by
  obtain ⟨suf, hs⟩ := h i
  rw [hs]
  exact List.mem_append.mpr (Or.inl hx)

theorem depsExt_set_append (d : List (List Nat)) (i : Nat) (suf : List Nat) :
    DepsExt d (d.set i (d.getD i [] ++ suf)) := by
  intro j
  by_cases hj : j = i
  · subst hj
    by_cases hlen : j < d.length
    · exact ⟨suf, getD_set_self d j _ [] hlen⟩
    · refine ⟨[], ?_⟩
      rw [set_oob d j _ (by omega)]
      simp
  · exact ⟨[], by rw [getD_set_ne d j i _ [] hj]; simp⟩

theorem depsExt_beforeStep (nodes : RenderGraph) (key : Nat)
    (d : List (List Nat)) (nm : String) :
    DepsExt d (beforeStep nodes key d nm) := by
  cases hk : getKey nodes nm with
  | none =>
    rw [show beforeStep nodes key d nm = d by simp only [beforeStep, hk]]
    exact depsExt_refl d
  | some t =>
    rw [show beforeStep nodes key d nm = d.set t (d.getD t [] ++ [key]) by
      simp only [beforeStep, hk]]
    exact depsExt_set_append d t [key]

theorem depsExt_collStep (nodes : RenderGraph) (d : List (List Nat))
    (p : Nat × RenderNodeMeta) :
    DepsExt d
      (let d' := p.2.before.foldl (beforeStep nodes p.1) d
       d'.set p.1 (d'.getD p.1 [] ++ p.2.after.filterMap (getKey nodes))) := by
  have hinner : DepsExt d (p.2.before.foldl (beforeStep nodes p.1) d) := by
    refine foldl_preserve (P := fun d2 => DepsExt d d2) _ _ _ (depsExt_refl d) ?_
    intro acc nm hnm hacc
    exact depsExt_trans hacc (depsExt_beforeStep nodes p.1 acc nm)
  exact depsExt_trans hinner (depsExt_set_append _ p.1 _)

theorem foldl_establish {α β : Type} (I P : β → Prop) (f : β → α → β) :
    ∀ (l : List α) (x : α), x ∈ l →
    (∀ acc a, a ∈ l → I acc → I (f acc a)) →
    (∀ acc, I acc → P (f acc x)) →
    (∀ acc a, a ∈ l → P acc → I acc → P (f acc a)) →
    ∀ b, I b → P (l.foldl f b) ∧ I (l.foldl f b) := by
  intro l
  induction l with
  | nil =>
    intro x hx
    exact absurd hx (by simp)
  | cons a rest ih =>
    intro x hx hI hstep hpres b hIb
    rw [List.foldl_cons]
    rcases List.mem_cons.mp hx with hxa | hxr
    · subst hxa
      exact foldl_preserve (P := fun acc => P acc ∧ I acc) f rest (f b x)
        ⟨hstep b hIb, hI b x (List.mem_cons_self _ _) hIb⟩
        (fun acc c hc hacc =>
          ⟨hpres acc c (List.mem_cons_of_mem _ hc) hacc.1 hacc.2,
           hI acc c (List.mem_cons_of_mem _ hc) hacc.2⟩)
    · exact ih x hxr
        (fun acc c hc hacc => hI acc c (List.mem_cons_of_mem _ hc) hacc)
        hstep
        (fun acc c hc hP hIacc => hpres acc c (List.mem_cons_of_mem _ hc) hP hIacc)
        (f b a) (hI b a (List.mem_cons_self _ _) hIb)

theorem collate_length_inv (nodes : RenderGraph) (d : List (List Nat))
    (p : Nat × RenderNodeMeta) (hlen : d.length = nodes.length) :
    ((let d' := p.2.before.foldl (beforeStep nodes p.1) d
      d'.set p.1 (d'.getD p.1 [] ++ p.2.after.filterMap (getKey nodes)))).length
      = nodes.length := by
  have hinner : (p.2.before.foldl (beforeStep nodes p.1) d).length
      = nodes.length := by
    refine foldl_preserve (P := fun d2 : List (List Nat) =>
      d2.length = nodes.length) _ _ _ hlen ?_
    intro acc nm hnm hacc
    cases hk : getKey nodes nm with
    | none =>
      rw [show beforeStep nodes p.1 acc nm = acc by simp only [beforeStep, hk]]
      exact hacc
    | some t =>
      rw [show beforeStep nodes p.1 acc nm = acc.set t (acc.getD t [] ++ [p.1]) by
        simp only [beforeStep, hk]]
      rw [List.length_set]
      exact hacc
  simp only
  rw [List.length_set]
  exact hinner

theorem after_mem_deps (nodes : RenderGraph) (key : Nat) (node : RenderNodeMeta)
    (hget : nodes[key]? = some node) (nm : String) (t : Nat)
    (hnm : nm ∈ node.after) (hkey : getKey nodes nm = some t) :
    t ∈ depsOf nodes key := by
  have hkn : key < nodes.length := getElem?_some_lt hget
  have hmem : (key, node) ∈ nodes.enum := List.mem_enum_iff_getElem?.mpr hget
  unfold depsOf collateDeps
  have := foldl_establish
    (I := fun d : List (List Nat) => d.length = nodes.length)
    (P := fun d : List (List Nat) => t ∈ d.getD key [])
    _ nodes.enum (key, node) hmem
    (fun acc p hp hacc => collate_length_inv nodes acc p hacc)
    ?_ ?_ (List.replicate nodes.length []) (by simp)
  · exact this.1
  · intro acc hacc
    simp only
    have hlen : (node.before.foldl (beforeStep nodes key) acc).length
        = nodes.length := by
      have := collate_length_inv nodes acc (key, node) hacc
      simp only at this
      rw [List.length_set] at this
      exact this
    rw [getD_set_self _ key _ [] (by rw [hlen]; exact hkn)]
    refine List.mem_append.mpr (Or.inr ?_)
    exact List.mem_filterMap.mpr ⟨nm, hnm, hkey⟩
  · intro acc p hp hP hI
    exact depsExt_mem (depsExt_collStep nodes acc p) hP

theorem before_mem_deps (nodes : RenderGraph) (key : Nat) (node : RenderNodeMeta)
    (hget : nodes[key]? = some node) (nm : String) (t : Nat)
    (hnm : nm ∈ node.before) (hkey : getKey nodes nm = some t) :
    key ∈ depsOf nodes t := by
  have htn : t < nodes.length := getKey_lt hkey
  have hmem : (key, node) ∈ nodes.enum := List.mem_enum_iff_getElem?.mpr hget
  unfold depsOf collateDeps
  have := foldl_establish
    (I := fun d : List (List Nat) => d.length = nodes.length)
    (P := fun d : List (List Nat) => key ∈ d.getD t [])
    _ nodes.enum (key, node) hmem
    (fun acc p hp hacc => collate_length_inv nodes acc p hacc)
    ?_ ?_ (List.replicate nodes.length []) (by simp)
  · exact this.1
  · intro acc hacc
    simp only
    have hinner := foldl_establish
      (I := fun d : List (List Nat) => d.length = nodes.length)
      (P := fun d : List (List Nat) => key ∈ d.getD t [])
      (beforeStep nodes key) node.before nm hnm
      ?_ ?_ ?_ acc hacc
    · exact depsExt_mem (depsExt_set_append _ key _) hinner.1
    · intro acc2 nm2 hnm2 hacc2
      cases hk2 : getKey nodes nm2 with
      | none =>
        rw [show beforeStep nodes key acc2 nm2 = acc2 by
          simp only [beforeStep, hk2]]
        exact hacc2
      | some t2 =>
        rw [show beforeStep nodes key acc2 nm2
            = acc2.set t2 (acc2.getD t2 [] ++ [key]) by
          simp only [beforeStep, hk2]]
        rw [List.length_set]
        exact hacc2
    · intro acc2 hacc2
      rw [show beforeStep nodes key acc2 nm = acc2.set t (acc2.getD t [] ++ [key]) by
        simp only [beforeStep, hkey]]
      rw [getD_set_self _ t _ [] (by rw [hacc2]; exact htn)]
      exact List.mem_append.mpr (Or.inr (List.mem_singleton.mpr rfl))
    · intro acc2 nm2 hnm2 hP2 hI2
      exact depsExt_mem (depsExt_beforeStep nodes key acc2 nm2) hP2
  · intro acc p hp hP hI
    exact depsExt_mem (depsExt_collStep nodes acc p) hP

theorem scanDeps_single_fresh {d : Nat} {visited : List Nat} (root next : Nat)
    (hd : d ∉ visited) :
    scanDeps [d] visited root next = .ok ([d], d :: visited) := by
  simp [scanDeps, hd]

theorem scanDeps_single_vis_ne {d : Nat} {visited : List Nat} {root : Nat}
    (next : Nat) (hd : d ∈ visited) (hne : d ≠ root) :
    scanDeps [d] visited root next = .ok ([], visited) := by
  simp [scanDeps, hd, hne]

theorem scanDeps_single_vis_eq {d : Nat} {visited : List Nat}
    (next : Nat) (hd : d ∈ visited) :
    scanDeps [d] visited d next = .error (d, next) := by
  simp [scanDeps, hd]

theorem bfsLoop_step_ok {deps : List (List Nat)} {root x : Nat}
    {visited news visited' : List Nat}
    (fuel : Nat) (pending order : List Nat)
    (hscan : scanDeps (deps.getD x []) visited root x = .ok (news, visited')) :
    bfsLoop deps root (fuel + 1) (x :: pending) visited order
      = bfsLoop deps root fuel (pending ++ news) visited' (order ++ news) := by
  simp only [bfsLoop, hscan]

theorem bfsLoop_step_err {deps : List (List Nat)} {root x : Nat}
    {visited : List Nat} {e : Nat × Nat}
    (fuel : Nat) (pending order : List Nat)
    (hscan : scanDeps (deps.getD x []) visited root x = .error e) :
    bfsLoop deps root (fuel + 1) (x :: pending) visited order = .error e := by
  simp only [bfsLoop, hscan]

theorem bfsLoop_chain (deps : List (List Nat)) (root : Nat) (n : Nat)
    (hdeps : ∀ i, ∀ j ∈ deps.getD i [], j < n)
    (hdeg : ∀ i, (deps.getD i []).length ≤ 1) :
    ∀ (fuel : Nat) (pending visited order : List Nat)
      (res : List Nat × List Nat) (y : Nat) (ord0 : List Nat),
    bfsLoop deps root fuel pending visited order = .ok res →
    order = ord0 ++ [y] →
    (pending = [y] ∨ (pending = [] ∧ ∀ d ∈ deps.getD y [], d ∈ visited)) →
    List.Chain' (fun a b => b ∈ deps.getD a []) order →
    (pending = [] ∨
      1 + ((Finset.range n).filter (fun i => i ∉ visited)).card ≤ fuel) →
    List.Chain' (fun a b => b ∈ deps.getD a []) res.1
    ∧ ∃ y' ord0', res.1 = ord0' ++ [y']
        ∧ ∀ d ∈ deps.getD y' [], d ∈ res.2 := by
  intro fuel
  induction fuel with
  | zero =>
    intro pending visited order res y ord0 h hord hshape hch hfuel
    cases pending with
    | nil =>
      unfold bfsLoop at h
      injection h with h
      subst h
      rcases hshape with hs | hs
      · exact absurd hs (by simp)
      · exact ⟨hch, y, ord0, hord, hs.2⟩
    | cons a pend =>
      rcases hfuel with hf | hf
      · exact absurd hf (by simp)
      · omega
  | succ fuel ih =>
    intro pending visited order res y ord0 h hord hshape hch hfuel
    cases pending with
    | nil =>
      unfold bfsLoop at h
      injection h with h
      subst h
      rcases hshape with hs | hs
      · exact absurd hs (by simp)
      · exact ⟨hch, y, ord0, hord, hs.2⟩
    | cons a pend =>
      have hs : a :: pend = [y] := by
        rcases hshape with hs | ⟨hnil, _⟩
        · exact hs
        · exact absurd hnil (by simp)
      have ha : a = y := by injection hs
      have hpend : pend = [] := by
        injection hs with h1 h2
      subst ha
      subst hpend
      have hfb : 1 +
          ((Finset.range n).filter (fun i => i ∉ visited)).card ≤ fuel + 1 := by
        rcases hfuel with hf | hf
        · exact absurd hf (by simp)
        · exact hf
      cases hdy : deps.getD a [] with
      | nil =>
        have hscan : scanDeps (deps.getD a []) visited root a
            = .ok ([], visited) := by
          rw [hdy]
          simp [scanDeps]
        rw [bfsLoop_step_ok fuel [] order hscan] at h
        simp only [List.append_nil] at h
        exact ih [] visited order res a ord0 h hord
          (Or.inr ⟨rfl, by
            intro dd hdd
            rw [hdy] at hdd
            exact absurd hdd (by simp)⟩)
          hch (Or.inl rfl)
      | cons d tail =>
        have htail : tail = [] := by
          have hlen := hdeg a
          rw [hdy, List.length_cons] at hlen
          exact List.eq_nil_of_length_eq_zero (by omega)
        subst htail
        have hdmem : d ∈ deps.getD a [] := by
          rw [hdy]
          exact List.mem_singleton.mpr rfl
        have hdn : d < n := hdeps a d hdmem
        by_cases hdv : d ∈ visited
        · by_cases hdr : d = root
          · subst hdr
            have hscan : scanDeps (deps.getD a []) visited d a
                = .error (d, a) := by
              rw [hdy]
              exact scanDeps_single_vis_eq a hdv
            rw [bfsLoop_step_err fuel [] order hscan] at h
            exact absurd h (by simp)
          · have hscan : scanDeps (deps.getD a []) visited root a
                = .ok ([], visited) := by
              rw [hdy]
              exact scanDeps_single_vis_ne a hdv hdr
            rw [bfsLoop_step_ok fuel [] order hscan] at h
            simp only [List.append_nil] at h
            exact ih [] visited order res a ord0 h hord
              (Or.inr ⟨rfl, by
                intro dd hdd
                rw [hdy, List.mem_singleton] at hdd
                exact hdd ▸ hdv⟩)
              hch (Or.inl rfl)
        · have hscan : scanDeps (deps.getD a []) visited root a
              = .ok ([d], d :: visited) := by
            rw [hdy]
            exact scanDeps_single_fresh root a hdv
          rw [bfsLoop_step_ok fuel [] order hscan] at h
          simp only [List.nil_append] at h
          have hch' : List.Chain' (fun p q => q ∈ deps.getD p [])
              (order ++ [d]) := by
            refine List.chain'_append.mpr ⟨hch, List.chain'_singleton d, ?_⟩
            intro p hp q hq
            have hp' : p = a := by
              rw [hord, List.getLast?_concat] at hp
              simp only [Option.mem_def, Option.some.injEq] at hp
              omega
            have hq' : q = d := by
              simp only [List.head?_cons, Option.mem_def,
                Option.some.injEq] at hq
              omega
            rw [hp', hq']
            exact hdmem
          have hdfmem : d ∈ (Finset.range n).filter (fun i => i ∉ visited) := by
            simp only [Finset.mem_filter, Finset.mem_range]
            exact ⟨hdn, hdv⟩
          have hfilter : (Finset.range n).filter (fun i => i ∉ (d :: visited))
              = ((Finset.range n).filter (fun i => i ∉ visited)).erase d := by
            ext i
            simp only [Finset.mem_filter, Finset.mem_erase, Finset.mem_range,
              List.mem_cons]
            constructor
            · intro ⟨h1, h2⟩
              push_neg at h2
              exact ⟨h2.1, h1, h2.2⟩
            · intro ⟨h1, h2, h3⟩
              refine ⟨h2, ?_⟩
              push_neg
              exact ⟨h1, h3⟩
          have hpos : 0 <
              ((Finset.range n).filter (fun i => i ∉ visited)).card :=
            Finset.card_pos.mpr ⟨d, hdfmem⟩
          have hfuel' : 1 +
              ((Finset.range n).filter (fun i => i ∉ (d :: visited))).card
                ≤ fuel := by
            rw [hfilter, Finset.card_erase_of_mem hdfmem]
            omega
          exact ih [d] (d :: visited) (order ++ [d]) res d order h rfl
            (Or.inl rfl) hch' (Or.inr hfuel')

theorem topoOuter_respects (nodes : RenderGraph)
    (hdeg : ∀ i, (depsOf nodes i).length ≤ 1) (hacyc : Acyclic nodes) :
    ∀ (roots visited acc res : List Nat),
    topoOuter (collateDeps nodes) (nodes.length + 1) roots visited acc
      = .ok res →
    (∀ x, x ∈ visited ↔ x ∈ acc) →
    acc.Nodup →
    (∀ x ∈ acc, x < nodes.length) →
    (∀ r ∈ roots, r < nodes.length) →
    RespectsDeps nodes acc →
    RespectsDeps nodes res := by
  intro roots
  induction roots with
  | nil =>
    intro visited acc res h hv hnd hlt hroots hR
    unfold topoOuter at h
    injection h with h
    subst h
    exact hR
  | cons r rest ih =>
    intro visited acc res h hv hnd hlt hroots hR
    have hrn : r < nodes.length := hroots r (List.mem_cons_self _ _)
    by_cases hrv : r ∈ visited
    · rw [show topoOuter (collateDeps nodes) (nodes.length + 1)
          (r :: rest) visited acc
          = topoOuter (collateDeps nodes) (nodes.length + 1) rest visited acc
        from by simp only [topoOuter, if_pos hrv]] at h
      exact ih visited acc res h hv hnd hlt
        (fun x hx => hroots x (List.mem_cons_of_mem _ hx)) hR
    · cases hbfs : bfsLoop (collateDeps nodes) r (nodes.length + 1) [r]
          (r :: visited) [r] with
      | error e =>
        rw [show topoOuter (collateDeps nodes) (nodes.length + 1)
            (r :: rest) visited acc = .error e
          from by simp only [topoOuter, if_neg hrv, hbfs]] at h
        exact absurd h (by simp)
      | ok p =>
        obtain ⟨batch, visited'⟩ := p
        rw [show topoOuter (collateDeps nodes) (nodes.length + 1)
            (r :: rest) visited acc
            = topoOuter (collateDeps nodes) (nodes.length + 1) rest visited'
                (acc ++ batch.reverse)
          from by simp only [topoOuter, if_neg hrv, hbfs]] at h
        have hdeps : ∀ i, ∀ j ∈ (collateDeps nodes).getD i [],
            j < nodes.length := fun i j hj => depsOf_lt nodes i j hj
        obtain ⟨b1, b2, b3, b4, _⟩ := bfsLoop_invariant (collateDeps nodes) r
          nodes.length visited hdeps (nodes.length + 1) [r] (r :: visited)
          [r] (batch, visited') hbfs
          (by
            intro x
            rw [List.mem_cons]
            constructor
            · intro hx
              rcases hx with hx | hx
              · exact Or.inr (hx ▸ List.mem_singleton.mpr rfl)
              · exact Or.inl hx
            · intro hx
              rcases hx with hx | hx
              · exact Or.inr hx
              · exact Or.inl (List.mem_singleton.mp hx))
          (List.nodup_singleton r)
          (by
            intro x hx
            rw [List.mem_singleton] at hx
            exact hx ▸ hrv)
          (fun x hx => hx)
          (by
            intro x hx
            rw [List.mem_singleton] at hx
            exact hx ▸ hrn)
        obtain ⟨k1, y', ord0', hbeq, hyd⟩ := bfsLoop_chain (collateDeps nodes)
          r nodes.length hdeps
          (fun i => hdeg i) (nodes.length + 1) [r] (r :: visited) [r]
          (batch, visited') r [] hbfs rfl (Or.inl rfl)
          (List.chain'_singleton r)
          (Or.inr (by
            have hcle : ((Finset.range nodes.length).filter
                (fun i => i ∉ (r :: visited))).card ≤ nodes.length := by
              calc ((Finset.range nodes.length).filter
                    (fun i => i ∉ (r :: visited))).card
                  ≤ (Finset.range nodes.length).card :=
                    Finset.card_filter_le _ _
                _ = nodes.length := Finset.card_range _
            omega))
        have hbeq' : batch = ord0' ++ [y'] := hbeq
        have hyd' : ∀ d ∈ depsOf nodes y', d ∈ visited' := hyd
        have k1' : List.Chain' (fun a b => b ∈ depsOf nodes a) batch := k1
        have hlastacc : ∀ y0 ord00, batch = ord00 ++ [y0] →
            ∀ d ∈ depsOf nodes y0, d ∈ acc := by
          intro y0 ord00 heq d hd
          have hy0 : y0 = y' := by
            have h1 : some y0 = some y' := by
              rw [← List.getLast?_concat ord00, ← heq, hbeq',
                List.getLast?_concat]
            exact Option.some.inj h1
          rw [hy0] at hd
          have hdv' : d ∈ visited' := hyd' d hd
          rcases (b1 d).mp hdv' with hdvis | hdbatch
          · exact (hv d).mp hdvis
          · exfalso
            have hreach : Relation.ReflTransGen (depStep nodes) d y' :=
              chain_reaches nodes ord0' y' (hbeq' ▸ k1') d (hbeq' ▸ hdbatch)
            have hstep1 : depStep nodes y' d := hd
            rcases Relation.reflTransGen_iff_eq_or_transGen.mp hreach
                with heq2 | htg2
            · rw [heq2] at hstep1
              exact hacyc d (Relation.TransGen.single hstep1)
            · exact hacyc y' (Relation.TransGen.trans
                (Relation.TransGen.single hstep1) htg2)
        have hfresh : ∀ x ∈ batch, x ∉ acc :=
          fun x hx hxa => b3 x hx ((hv x).mpr hxa)
        have hR' : RespectsDeps nodes (acc ++ batch.reverse) :=
          respectsDeps_extend nodes hdeg batch acc hR k1' hfresh b2 hlastacc
        refine ih visited' (acc ++ batch.reverse) res h ?_ ?_ ?_
          (fun x hx => hroots x (List.mem_cons_of_mem _ hx)) hR'
        · intro x
          constructor
          · intro hx
            rcases (b1 x).mp hx with hx' | hx'
            · exact List.mem_append.mpr (Or.inl ((hv x).mp hx'))
            · exact List.mem_append.mpr (Or.inr (List.mem_reverse.mpr hx'))
          · intro hx
            rcases List.mem_append.mp hx with hx' | hx'
            · exact (b1 x).mpr (Or.inl ((hv x).mpr hx'))
            · exact (b1 x).mpr (Or.inr (List.mem_reverse.mp hx'))
        · exact List.Nodup.append hnd (List.nodup_reverse.mpr b2)
            (fun x hxa hxb => hfresh x (List.mem_reverse.mp hxb) hxa)
        · intro x hx
          rcases List.mem_append.mp hx with hx' | hx'
          · exact hlt x hx'
          · exact b4 x (List.mem_reverse.mp hx')

theorem acyclic_of_no_cycleB (nodes : RenderGraph)
    (h : hasCycleB nodes = false) : Acyclic nodes := by
  intro i htg
  obtain ⟨j, hij, hji⟩ := Relation.TransGen.head'_iff.mp htg
  have hij' : j ∈ depsOf nodes i := hij
  have hjn : j < nodes.length := depsOf_lt nodes i j hij'
  have hin : i < nodes.length := by
    by_contra hge
    have hnil : depsOf nodes i = [] := by
      unfold depsOf
      exact List.getD_eq_default _ _ (by rw [(collateDeps_bounds nodes).1]; omega)
    rw [hnil] at hij'
    exact absurd hij' (by simp)
  have hmem : i ∈ reachesFrom nodes j := by
    unfold reachesFrom
    exact (dfsClosure_spec (depsOf nodes) nodes.length j
      (fun a _ b hb => depsOf_lt nodes a b hb) hjn i).mpr hji
  simp only [hasCycleB, List.any_eq_false, List.mem_range,
    decide_eq_true_eq] at h
  have hinner : ((depsOf nodes i).any
      fun j => decide (i ∈ reachesFrom nodes j)) = true :=
    List.any_eq_true.mpr ⟨j, hij', by simpa using hmem⟩
  exact h i hin hinner

theorem compile_ok_topoSort (nodes : RenderGraph) (order : List Nat)
    (h : RenderGraph.compile nodes = .ok order) :
    topoSort nodes = .ok order := by
  cases hts : topoSort nodes with
  | error p =>
    simp only [RenderGraph.compile, hts] at h
    exact absurd h (by simp)
  | ok o =>
    simp only [RenderGraph.compile, hts] at h
    by_cases hamb : (ambiguities nodes o).isEmpty
    · rw [if_pos hamb] at h
      injection h with h
      rw [h]
    · rw [if_neg hamb] at h
      exact absurd h (by simp)

/-- Claim C1, corrected: the pointer-scan "topological sort" only orders
dependencies before dependents in general when every node has at most one
collated dependency (each traversal then walks a simple chain whose
reversal is correctly ordered).  Under that restriction and acyclicity,
every explicit after(A,B) puts B strictly before A in the returned order,
and every explicit before(A,B) puts A strictly before B (positions are
indices into the order, as recorded by nodes_indices). -/
theorem claim_C1_single_dep_order (nodes : RenderGraph)
    (hdeg : DepsAtMostOne nodes) (hacyc : Acyclic nodes)
    (order : List Nat) (h : RenderGraph.compile nodes = .ok order) :
    ∀ key node, nodes[key]? = some node →
      (∀ nm ∈ node.after, ∀ t, getKey nodes nm = some t →
        order.indexOf t < order.indexOf key) ∧
      (∀ nm ∈ node.before, ∀ t, getKey nodes nm = some t →
        order.indexOf key < order.indexOf t) := by
  have hts := compile_ok_topoSort nodes order h
  have hperm := topoSort_perm nodes order hts
  have hts' : topoOuter (collateDeps nodes) (nodes.length + 1)
      (List.range nodes.length) [] [] = .ok order := hts
  have hR : RespectsDeps nodes order :=
    topoOuter_respects nodes (depsOf_len_le_one hdeg) hacyc
      (List.range nodes.length) [] [] order hts'
      (by intro x; simp)
      List.nodup_nil
      (by intro x hx; exact absurd hx (by simp))
      (by intro r hr; exact List.mem_range.mp hr)
      (by intro x hx; exact absurd hx (by simp))
  intro key node hget
  have hkeyin : key ∈ order := (hperm.2 key).mpr (getElem?_some_lt hget)
  constructor
  · intro nm hnm t ht
    exact (hR key hkeyin t (after_mem_deps nodes key node hget nm t hnm ht)).2
  · intro nm hnm t ht
    have htin : t ∈ order := (hperm.2 t).mpr (getKey_lt ht)
    exact (hR t htin key (before_mem_deps nodes key node hget nm t hnm ht)).2

set_option maxHeartbeats 2000000 in
/-- Counterexample to claim C1 as stated: an acyclic three-node graph
("A" unconstrained; "C" before "A"; "B" before "A" and after "C") compiles
to the order [2, 1, 0], where node 2 ("B") runs at position 0 and its
explicit after-target node 1 ("C") runs at position 1 — the dependency runs
AFTER the dependent, violating the claimed position(A) > position(B).  The
pointer scan discovers both 1 and 2 while rooted at 0 and the final
reversal interleaves them wrongly once a node has two collated
dependencies. -/
theorem claim_C1_counterexample :
    RenderGraph.compile
      [⟨"A", [], [], [], []⟩, ⟨"C", ["A"], [], [], []⟩,
       ⟨"B", ["A"], ["C"], [], []⟩] = .ok [2, 1, 0]
    ∧ Acyclic [⟨"A", [], [], [], []⟩, ⟨"C", ["A"], [], [], []⟩,
       ⟨"B", ["A"], ["C"], [], []⟩]
    ∧ "C" ∈ (⟨"B", ["A"], ["C"], [], []⟩ : RenderNodeMeta).after
    ∧ getKey [⟨"A", [], [], [], []⟩, ⟨"C", ["A"], [], [], []⟩,
       ⟨"B", ["A"], ["C"], [], []⟩] "C" = some 1
    ∧ ¬ (([2, 1, 0] : List Nat).indexOf 1 < ([2, 1, 0] : List Nat).indexOf 2) :=
  ⟨by rfl, acyclic_of_no_cycleB _ (by rfl), by decide, by rfl, by decide⟩

set_option maxHeartbeats 2000000 in
/-- Witness for claim C1 (corrected): the two-node graph "A", "B" with
after(B, A) satisfies the at-most-one-dependency restriction, compiles to
[0, 1], and the order puts the after-target "A" strictly before "B". -/
theorem claim_C1_witness :
    DepsAtMostOne [⟨"A", [], [], [], []⟩, ⟨"B", [], ["A"], [], []⟩]
    ∧ RenderGraph.compile [⟨"A", [], [], [], []⟩, ⟨"B", [], ["A"], [], []⟩]
        = .ok [0, 1]
    ∧ ([0, 1] : List Nat).indexOf 0 < ([0, 1] : List Nat).indexOf 1 := by
  refine ⟨by unfold DepsAtMostOne; decide, by rfl, ?_⟩
  have hmain := claim_C1_single_dep_order
    [⟨"A", [], [], [], []⟩, ⟨"B", [], ["A"], [], []⟩]
    (by unfold DepsAtMostOne; decide)
    (acyclic_of_no_cycleB _ (by rfl))
    [0, 1] (by rfl) 1 ⟨"B", [], ["A"], [], []⟩ (by rfl)
  exact hmain.1 "A" (by decide) 0 (by rfl)

theorem getKey_of_names_nodup (nodes : RenderGraph)
    (hnames : (nodes.map RenderNodeMeta.name).Nodup)
    (k : Nat) (node : RenderNodeMeta) (hget : nodes[k]? = some node) :
    getKey nodes node.name = some k := by
  have hmem : (k, node) ∈ nodes.enum := List.mem_enum_iff_getElem?.mpr hget
  unfold getKey
  have := foldl_establish (I := fun _ : Option Nat => True)
    (P := fun acc : Option Nat => acc = some k)
    (fun acc p => if p.2.name = node.name then some p.1 else acc)
    nodes.enum (k, node) hmem
    (fun _ _ _ _ => trivial)
    (by
      intro acc _
      simp)
    (by
      intro acc p hp hP _
      simp only
      by_cases hname : p.2.name = node.name
      · rw [if_pos hname]
        have hpget : nodes[p.1]? = some p.2 := by
          have hp' : (p.1, p.2) ∈ nodes.enum := by rwa [Prod.mk.eta]
          exact List.mem_enum_iff_getElem?.mp hp'
        have h1 : (nodes.map RenderNodeMeta.name)[p.1]? = some node.name := by
          rw [List.getElem?_map, hpget]
          simp [hname]
        have h2 : (nodes.map RenderNodeMeta.name)[k]? = some node.name := by
          rw [List.getElem?_map, hget]
          simp
        have hlt : p.1 < (nodes.map RenderNodeMeta.name).length := by
          rw [List.length_map]
          exact mem_enum_fst_lt hp
        have := List.getElem?_inj hlt hnames (h1.trans h2.symm)
        rw [this]
      · rw [if_neg hname]
        exact hP)
    none trivial
  exact this.1

theorem getName_of_nodup (nodes : RenderGraph)
    (hnames : (nodes.map RenderNodeMeta.name).Nodup)
    (k : Nat) (node : RenderNodeMeta) (hget : nodes[k]? = some node) :
    getName nodes k = some node.name := by
  unfold getName
  rw [hget]
  simp only
  rw [if_pos (getKey_of_names_nodup nodes hnames k node hget)]

theorem ancSet_iff_posReach (nodes : RenderGraph) (order : List Nat)
    (hts : topoSort nodes = .ok order) (i : Nat) (hi : i < order.length) :
    ∀ x, x ∈ ancSet nodes order i ↔ PosReach nodes order i x := by
  have hperm := topoSort_perm nodes order hts
  have hnbr : ∀ a, a < order.length →
      ∀ b ∈ posNbr nodes order a, b < order.length := by
    intro a _ b hb
    unfold posNbr at hb
    obtain ⟨dep, hdep, hbe⟩ := List.mem_map.mp hb
    have hdn : dep < nodes.length := depsOf_lt nodes _ dep hdep
    have hdo : dep ∈ order := (hperm.2 dep).mpr hdn
    rw [← hbe]
    exact List.indexOf_lt_length.mpr hdo
  exact fun x =>
    dfsClosure_spec (posNbr nodes order) order.length i hnbr hi x

theorem compile_woa_eq (nodes : RenderGraph) (order : List Nat)
    (hts : topoSort nodes = .ok order) (pairs : List (String × String))
    (h : RenderGraph.compile nodes
      = .error (.writeOrderAmbiguity pairs)) :
    pairs = ambiguities nodes order := by
  simp only [RenderGraph.compile, hts] at h
  by_cases hamb : (ambiguities nodes order).isEmpty
  · rw [if_pos hamb] at h
    exact absurd h (by simp)
  · rw [if_neg hamb] at h
    injection h with h
    injection h with h
    exact h.symm

theorem compile_woa_of_nonempty (nodes : RenderGraph) (order : List Nat)
    (hts : topoSort nodes = .ok order)
    (h : (ambiguities nodes order).isEmpty = false) :
    RenderGraph.compile nodes
      = .error (.writeOrderAmbiguity (ambiguities nodes order)) := by
  simp only [RenderGraph.compile, hts]
  rw [if_neg (by rw [h]; exact Bool.false_ne_true)]

theorem pos_of_nameAt_eq (nodes : RenderGraph)
    (hnames : (nodes.map RenderNodeMeta.name).Nodup)
    (order : List Nat) (hts : topoSort nodes = .ok order)
    (p q : Nat) (hp : p < order.length) (hq : q < order.length)
    (heq : (getName nodes (order.getD p 0)).getD ""
         = (getName nodes (order.getD q 0)).getD "") : p = q := by
  have hperm := topoSort_perm nodes order hts
  have hkp : order.getD p 0 = order[p] := List.getD_eq_getElem order 0 hp
  have hkq : order.getD q 0 = order[q] := List.getD_eq_getElem order 0 hq
  have hpmem : order[p] ∈ order := List.getElem_mem hp
  have hqmem : order[q] ∈ order := List.getElem_mem hq
  have hpn : order[p] < nodes.length := (hperm.2 _).mp hpmem
  have hqn : order[q] < nodes.length := (hperm.2 _).mp hqmem
  have hgp : nodes[order[p]]? = some (nodes[order[p]]) :=
    List.getElem?_eq_getElem hpn
  have hgq : nodes[order[q]]? = some (nodes[order[q]]) :=
    List.getElem?_eq_getElem hqn
  have hnp := getName_of_nodup nodes hnames _ _ hgp
  have hnq := getName_of_nodup nodes hnames _ _ hgq
  rw [hkp, hkq, hnp, hnq] at heq
  simp only [Option.getD_some] at heq
  have h1 : (nodes.map RenderNodeMeta.name)[order[p]]?
      = some ((nodes[order[p]]).name) := by
    rw [List.getElem?_map, hgp]
    rfl
  have h2 : (nodes.map RenderNodeMeta.name)[order[q]]?
      = some ((nodes[order[q]]).name) := by
    rw [List.getElem?_map, hgq]
    rfl
  have hkeq : order[p] = order[q] := by
    refine List.getElem?_inj (by rw [List.length_map]; exact hpn) hnames ?_
    rw [h1, h2, heq]
  refine List.getElem?_inj hp hperm.1 ?_
  rw [List.getElem?_eq_getElem hp, List.getElem?_eq_getElem hq, hkeq]

/-- Claim C3: for two positions a, b of the compiled order with no
transitive dependency between them in either direction (in the position
graph the ambiguity analysis builds), compile fails with a
WriteOrderAmbiguity containing the pair of their names exactly when their
recorded access sets conflict: reads_a meets writes_b, or reads_b meets
writes_a, or writes_a meets writes_b.  Node names are assumed distinct so
that the reported names identify the nodes. -/
theorem claim_C3_ambiguity_iff_conflict (nodes : RenderGraph)
    (hnames : (nodes.map RenderNodeMeta.name).Nodup)
    (order : List Nat) (hts : topoSort nodes = .ok order)
    (a b : Nat) (ha : a < order.length) (hb : b < order.length)
    (hab : ¬ PosReach nodes order a b) (hba : ¬ PosReach nodes order b a) :
    (∃ pairs, RenderGraph.compile nodes
        = .error (.writeOrderAmbiguity pairs)
      ∧ ((getName nodes (order.getD a 0)).getD "",
         (getName nodes (order.getD b 0)).getD "") ∈ pairs)
    ↔ do_nodes_conflict nodes order a b = true := by
  constructor
  · rintro ⟨pairs, hc, hmem⟩
    rw [compile_woa_eq nodes order hts pairs hc] at hmem
    simp only [ambiguities, List.mem_flatMap, List.mem_filterMap,
      List.mem_filter, List.mem_range, decide_eq_true_eq] at hmem
    obtain ⟨a', ha', b', ⟨hb', hbanc⟩, hsome⟩ := hmem
    by_cases h1 : a' ∈ ancSet nodes order b'
    · rw [if_pos h1] at hsome
      exact absurd hsome (by simp)
    · rw [if_neg h1] at hsome
      by_cases h2 : do_nodes_conflict nodes order a' b' = true
      · rw [if_pos h2] at hsome
        injection hsome with hsome
        rw [Prod.mk.injEq] at hsome
        obtain ⟨e1, e2⟩ := hsome
        have hea : a' = a :=
          pos_of_nameAt_eq nodes hnames order hts a' a ha' ha e1
        have heb : b' = b :=
          pos_of_nameAt_eq nodes hnames order hts b' b hb' hb e2
        rw [hea, heb] at h2
        exact h2
      · rw [if_neg h2] at hsome
        exact absurd hsome (by simp)
  · intro hc
    have hbanc : ¬ b ∈ ancSet nodes order a := fun hm =>
      hab ((ancSet_iff_posReach nodes order hts a ha b).mp hm)
    have haanc : ¬ a ∈ ancSet nodes order b := fun hm =>
      hba ((ancSet_iff_posReach nodes order hts b hb a).mp hm)
    have hpair : ((getName nodes (order.getD a 0)).getD "",
        (getName nodes (order.getD b 0)).getD "")
        ∈ ambiguities nodes order := by
      simp only [ambiguities, List.mem_flatMap, List.mem_filterMap,
        List.mem_filter, List.mem_range, decide_eq_true_eq]
      exact ⟨a, ha, b, ⟨hb, hbanc⟩, by rw [if_neg haanc, if_pos hc]⟩
    have hne : (ambiguities nodes order).isEmpty = false := by
      cases hamb : (ambiguities nodes order).isEmpty
      · rfl
      · rw [List.isEmpty_iff] at hamb
        rw [hamb] at hpair
        exact absurd hpair (by simp)
    exact ⟨ambiguities nodes order,
      compile_woa_of_nonempty nodes order hts hne, hpair⟩

set_option maxHeartbeats 2000000 in
/-- Witness for claim C3: two unordered nodes "A" and "B" both writing
virtual resource 0 make compile fail with a WriteOrderAmbiguity containing
the pair of their names, and their access sets conflict. -/
theorem claim_C3_witness :
    do_nodes_conflict [⟨"A", [], [], [], [0]⟩, ⟨"B", [], [], [], [0]⟩]
        [0, 1] 0 1 = true
    ∧ ∃ pairs, RenderGraph.compile
        [⟨"A", [], [], [], [0]⟩, ⟨"B", [], [], [], [0]⟩]
        = .error (.writeOrderAmbiguity pairs)
      ∧ (("A" : String), ("B" : String)) ∈ pairs := by
  have hmain := (claim_C3_ambiguity_iff_conflict
    [⟨"A", [], [], [], [0]⟩, ⟨"B", [], [], [], [0]⟩]
    (by decide) [0, 1] (by rfl) 0 1 (by decide) (by decide)
    (fun h => absurd ((ancSet_iff_posReach
      [⟨"A", [], [], [], [0]⟩, ⟨"B", [], [], [], [0]⟩] [0, 1]
      (by rfl) 0 (by decide) 1).mpr h) (by decide))
    (fun h => absurd ((ancSet_iff_posReach
      [⟨"A", [], [], [], [0]⟩, ⟨"B", [], [], [], [0]⟩] [0, 1]
      (by rfl) 1 (by decide) 0).mpr h) (by decide))).mpr (by decide)
  refine ⟨by decide, ?_⟩
  obtain ⟨pairs, hc, hm⟩ := hmain
  refine ⟨pairs, hc, ?_⟩
  have hnm : ((getName [⟨"A", [], [], [], [0]⟩, ⟨"B", [], [], [], [0]⟩]
      (([0, 1] : List Nat).getD 0 0)).getD "",
    (getName [⟨"A", [], [], [], [0]⟩, ⟨"B", [], [], [], [0]⟩]
      (([0, 1] : List Nat).getD 1 0)).getD "")
      = (("A" : String), ("B" : String)) := by rfl
  rw [← hnm]
  exact hm
